import Mathlib

/-!
Verification of the core of the `pborges/cupl` compiler: the Quine-McCluskey
minimizer (`minimizeTerms` and helpers), the field-range cube decomposition
(`rangeToCubes`, `fieldRangeTerms`), the GAL placement engine (`AddTerm`,
`pinToColumn`, `BuildGAL`) and the JEDEC emitter (`MakeJEDEC`, `checkSummer`).

The Go source is embedded shallowly: Go `uint64` values are modelled as `Nat`
(all quantities handled by the program are below `2 ^ 64`; where that bound
matters for faithfulness a hypothesis records it), Go maps that are used as
sets are modelled as duplicate-free lists built with `setInsert` (the list
order is the model's canonical iteration order; every place where the Go map
iteration order can influence the result is noted), Go maps used only for
keyed lookup are modelled as association lists, and Go slices as `List`.
Functions that can fail return `Except` or pair their result with an
`Option String` error.  All definitions are structurally recursive so that
concrete runs reduce inside the kernel.
-/

/-- Insert into a list used as a set (the model of writing `m[x] = true` into
a Go map used as a set): appends only if absent, so the list stays
duplicate-free in insertion order. -/
def setInsert {α : Type} [DecidableEq α] (l : List α) (x : α) : List α :=
  if x ∈ l then l else l ++ [x]

/-- Insert `x` into a list sorted by `le`, in front of the first element it
compares below. -/
def insertLe {α : Type} (le : α → α → Bool) (x : α) : List α → List α
  | [] => [x]
  | y :: ys => if le x y then x :: y :: ys else y :: insertLe le x ys

/-- Insertion sort by the boolean comparator `le`.  The source uses Go's
`sort.Slice` / `sort.Strings`; everywhere a sort occurs the sort keys of
distinct elements are distinct, so any sorting algorithm produces the same
list and a structurally recursive one is used. -/
def sortBy {α : Type} (le : α → α → Bool) : List α → List α
  | [] => []
  | x :: xs => insertLe le x (sortBy le xs)

/-- Lexicographic order on character lists by code point.  On the ASCII names
the compiler handles this is exactly Go's byte-wise `<` on strings. -/
def charsLE : List Char → List Char → Bool
  | [], _ => true
  | _ :: _, [] => false
  | a :: as, b :: bs =>
    if a.val.toNat < b.val.toNat then true
    else if b.val.toNat < a.val.toNat then false
    else charsLE as bs

/-- Go's `<=` on strings (used by `sort.Strings` and the literal sorts),
as a kernel-reducible comparison on the underlying character list. -/
def strLE (a b : String) : Bool := charsLE a.data b.data

/-- Go map lookup `varIndex[name]` where `varIndex` maps each entry of
`vars` to its index: first index of `n` in `vars`, `0` (the Go zero value)
if absent. -/
def indexOfName (vars : List String) (n : String) : Nat :=
  (vars.findIdx? (fun v => v = n)).getD 0

namespace cupl

/-- Go `a &^ b` (AND NOT) on unsigned integers, as a `Nat` operation:
bit `i` of the result is set iff it is set in `a` and clear in `b`. -/
def andNot (a b : Nat) : Nat := a ^^^ (a &&& b)

/-- `Literal` from the source: a possibly negated variable reference. -/
structure Literal where
  Name : String
  Neg : Bool
deriving DecidableEq

/-- `Term` from the source: a product term, the conjunction of its literals.
The empty term denotes boolean TRUE. -/
structure Term where
  Lits : List Literal
deriving DecidableEq

/-- `implicant` from the source: a product term over indexed variables as a
pair of bit masks.  `mask` bit = 1 means the variable position is care,
`value` bit = 1 means that care position is un-negated. -/
structure implicant where
  value : Nat
  mask : Nat
deriving DecidableEq

instance : Inhabited implicant := ⟨⟨0, 0⟩⟩

/-- `collectVars` from the source: sorted unique variable names occurring in
the terms (Go gathers the names in a map used as a set and sorts them). -/
def collectVars (terms : List Term) : List String :=
  sortBy strLE ((terms.map (fun t => t.Lits.map (fun l => l.Name))).flatten.dedup)

/-- `termToImplicant` from the source.  The variable index map
`varIndex` is the position in the sorted `vars` list. -/
def termToImplicant (t : Term) (vars : List String) : implicant :=
  t.Lits.foldl
    (fun acc l =>
      let bit := 1 <<< indexOfName vars l.Name
      { value := if l.Neg then acc.value else acc.value ||| bit,
        mask := acc.mask ||| bit })
    { value := 0, mask := 0 }

/-- The don't-care bit positions of an implicant below `numVars`
(`dcBits` in the source's `expandMinterms`). -/
def dcBitsOf (imp : implicant) (numVars : Nat) : List Nat :=
  (List.range numVars).filter (fun b => imp.mask &&& (1 <<< b) = 0)

/-- One enumeration step of the source's `expandMinterms`: distribute the
bits of the counter `i` over the don't-care positions. -/
def spreadDC (base : Nat) (dcBits : List Nat) (i : Nat) : Nat :=
  dcBits.enum.foldl
    (fun m jb => if i &&& (1 <<< jb.1) ≠ 0 then m ||| (1 <<< jb.2) else m) base

/-- `expandMinterms` from the source, as the list of minterms the implicant
is expanded to (the Go function inserts them into a caller-supplied map).
When there are more than 20 don't-care positions only the base value is
produced (the source's safety cap). -/
def expandMinterms (imp : implicant) (numVars : Nat) : List Nat :=
  let dcBits := dcBitsOf imp numVars
  let base := imp.value &&& imp.mask
  if dcBits.length > 20 then [base]
  else (List.range (2 ^ dcBits.length)).map (spreadDC base dcBits)

/-- The contents of the `mintermSet` map of `minimizeTerms`: all minterms of
all input implicants, first-insertion order, duplicate-free. -/
def mintermSetOf (imps : List implicant) (numVars : Nat) : List Nat :=
  imps.foldl (fun s imp => (expandMinterms imp numVars).foldl setInsert s) []

/-- `tryMerge` from the source: merge two implicants with identical masks
differing in exactly one care bit. -/
def tryMerge (a b : implicant) : Option implicant :=
  if a.mask ≠ b.mask then none
  else
    let diff := (a.value ^^^ b.value) &&& a.mask
    if diff = 0 ∨ diff &&& (diff - 1) ≠ 0 then none
    else some { value := andNot a.value diff, mask := andNot a.mask diff }

/-- All ordered pairs `(l[i], l[j])` with `i < j` (the pair loop of
`findPrimeImplicants`). -/
def pairsUpper {α : Type} : List α → List (α × α)
  | [] => []
  | x :: xs => xs.map (fun y => (x, y)) ++ pairsUpper xs

/-- The contents of one round's `merged` map in `findPrimeImplicants`:
successful merges over all pairs of the current set. -/
def mergedSet (cur : List implicant) : List implicant :=
  (pairsUpper cur).foldl
    (fun s p =>
      match tryMerge p.1 p.2 with
      | some m => setInsert s m
      | none => s) []

/-- Whether an implicant of the current round took part in some merge
(membership in the source's `used` map): `tryMerge` is symmetric, so an
implicant is used iff it merges with some other element of the round. -/
def isUsed (cur : List implicant) (a : implicant) : Bool :=
  cur.any (fun b => decide (b ≠ a) && (tryMerge a b).isSome)

/-- The round loop of `findPrimeImplicants`.  Go loops until the current set
is empty; the fuel argument is set by `findPrimeImplicants` to a provably
sufficient bound (each round removes one care bit from every surviving mask;
see the `qmLoop` lemmas below). -/
def qmLoop : Nat → List implicant → List implicant → List implicant
  | 0, _, primes => primes
  | fuel + 1, cur, primes =>
    if cur.isEmpty then primes
    else
      qmLoop fuel (mergedSet cur)
        ((cur.filter (fun a => !isUsed cur a)).foldl setInsert primes)

/-- The comparator `findPrimeImplicants` sorts the prime set with:
(mask, value) descending. -/
def leMVdesc (a b : implicant) : Bool :=
  decide (b.mask < a.mask ∨ (b.mask = a.mask ∧ b.value ≤ a.value))

/-- `findPrimeImplicants` from the source: start from the minterms as fully
specified implicants, iterate merge rounds, and return the unmerged
implicants sorted by (mask, value) descending. -/
def findPrimeImplicants (minterms : List Nat) (numVars : Nat) : List implicant :=
  let fullMask := 2 ^ numVars - 1
  let start : List implicant :=
    minterms.foldl (fun s m => setInsert s ⟨m &&& fullMask, fullMask⟩) []
  sortBy leMVdesc (qmLoop (numVars + 1) start [])

/-- The coverage of one prime in `minimumCover` (the source's
`pInfos[i].covers`): the indices into `minterms` of the minterms the prime
expands to. -/
def coversOf (p : implicant) (minterms : List Nat) (numVars : Nat) : List Nat :=
  (List.range minterms.length).filter
    (fun i => minterms.getD i 0 ∈ expandMinterms p numVars)

/-- The state threaded through the cover-selection loops of `minimumCover`:
per-prime coverage (`none` once a prime has been selected, mirroring the
source setting `covers = nil`), the list of still-uncovered minterm indices
(the source's `uncovered` array together with `uncoveredCount`), and the
selected primes in selection order. -/
structure coverState where
  covers : List (implicant × Option (List Nat))
  uncov : List Nat
  selected : List implicant

/-- Phase 1 of `minimumCover`: the unique still-active prime covering minterm
index `mi`, if exactly one does (the source's `sole` scan). -/
def soleCover (cs : List (implicant × Option (List Nat))) (mi : Nat) : Option Nat :=
  let hits := (List.range cs.length).filter (fun pi =>
    match (cs.getD pi default).2 with
    | some c => mi ∈ c
    | none => false)
  match hits with
  | [pi] => some pi
  | _ => none

/-- Selecting prime `pi`: append it to the output, mark its minterms covered
and deactivate it (the source sets `pInfos[sole].covers = nil`). -/
def selectPrime (st : coverState) (pi : Nat) : coverState :=
  let entry := st.covers.getD pi default
  match entry.2 with
  | none => st
  | some c =>
    { covers := st.covers.set pi (entry.1, none)
      uncov := st.uncov.filter (fun mi => mi ∉ c)
      selected := st.selected ++ [entry.1] }

/-- One sweep of phase 1 over the minterm indices in order, selecting every
essential prime found; the returned flag is the source's `changed`. -/
def phase1Sweep (st : coverState) (n : Nat) : coverState × Bool :=
  (List.range n).foldl
    (fun acc mi =>
      if mi ∈ acc.1.uncov then
        match soleCover acc.1.covers mi with
        | some pi => (selectPrime acc.1 pi, true)
        | none => acc
      else acc)
    (st, false)

/-- The phase-1 outer loop: sweep until a sweep selects nothing.  Each
changing sweep deactivates at least one prime, so `minimumCover` passes
fuel `|primes| + 1`, which is sufficient. -/
def phase1Loop : Nat → coverState → Nat → coverState
  | 0, st, _ => st
  | fuel + 1, st, n =>
    let sw := phase1Sweep st n
    if sw.2 then phase1Loop fuel sw.1 n else sw.1

/-- Phase 2 of `minimumCover`: the first prime covering the most currently
uncovered minterms (`none` if no active prime covers anything, the source's
`bestPI < 0`).  The source only updates on a strictly greater count, so the
first index attaining the maximum wins. -/
def bestPIof (st : coverState) : Option Nat :=
  ((List.range st.covers.length).foldl
    (fun best pi =>
      let cnt := match (st.covers.getD pi default).2 with
        | some c => (c.filter (fun mi => mi ∈ st.uncov)).length
        | none => 0
      if cnt > best.2 then (some pi, cnt) else best)
    ((none : Option Nat), 0)).1

/-- The phase-2 greedy loop.  Each iteration covers at least one minterm, so
`minimumCover` passes fuel `|minterms| + 1`, which is sufficient. -/
def phase2Loop : Nat → coverState → coverState
  | 0, st => st
  | fuel + 1, st =>
    if st.uncov.isEmpty then st
    else
      match bestPIof st with
      | none => st
      | some pi => phase2Loop fuel (selectPrime st pi)

/-- `minimumCover` from the source: essential prime implicants first, then
greedy selection. -/
def minimumCover (primes : List implicant) (minterms : List Nat)
    (numVars : Nat) : List implicant :=
  if primes = [] then []
  else
    let cs := primes.map (fun p => (p, some (coversOf p minterms numVars)))
    let st0 : coverState := ⟨cs, List.range minterms.length, []⟩
    let st1 := phase1Loop (cs.length + 1) st0 minterms.length
    let st2 := phase2Loop (minterms.length + 1) st1
    st2.selected

/-- `implicantsToTerms` from the source: one literal per care bit, names taken
from the sorted variable list, then sorted by name (a no-op, since `vars` is
sorted, kept to mirror the source). -/
def implicantsToTerms (imps : List implicant) (vars : List String) : List Term :=
  imps.map (fun imp =>
    let lits := vars.enum.filterMap (fun iv =>
      if imp.mask &&& (1 <<< iv.1) = 0 then none
      else some (⟨iv.2, imp.value &&& (1 <<< iv.1) == 0⟩ : Literal))
    ⟨sortBy (fun a b => strLE a.Name b.Name) lits⟩)

/-- The comparator `minimizeTerms` uses on the selected primes:
(value, mask) descending. -/
def leVMdesc (a b : implicant) : Bool :=
  decide (b.value < a.value ∨ (b.value = a.value ∧ b.mask ≤ a.mask))

/-- The comparator `minimizeTerms` uses on the original implicants:
(value, mask) ascending. -/
def leVMasc (a b : implicant) : Bool :=
  decide (a.value < b.value ∨ (a.value = b.value ∧ a.mask ≤ b.mask))

/-- `minimizeTerms` from the source: Quine-McCluskey minimization with the
keep-or-reject rule on the selected cover. -/
def minimizeTerms (terms : List Term) : List Term :=
  if terms.length ≤ 1 then terms
  else if terms.any (fun t => t.Lits.isEmpty) then terms
  else
    let vars := collectVars terms
    if vars.isEmpty then terms
    else
      let numVars := vars.length
      let inputImps := terms.map (fun t => termToImplicant t vars)
      let mintermSet := mintermSetOf inputImps numVars
      if mintermSet.isEmpty then terms
      else
        let minterms := sortBy (fun a b => decide (a ≤ b)) mintermSet
        let primes := findPrimeImplicants minterms numVars
        let selected := minimumCover primes minterms numVars
        if selected.length < terms.length then
          implicantsToTerms (sortBy leVMdesc selected) vars
        else
          implicantsToTerms (sortBy leVMasc inputImps) vars

/-! Boolean semantics of product terms (the denotation the specification's
equivalence property speaks about). -/

/-- A literal is satisfied by an assignment iff the variable's value matches
the literal's polarity. -/
def evalLit (σ : String → Bool) (l : Literal) : Bool :=
  if l.Neg then !(σ l.Name) else σ l.Name

/-- A product term denotes the conjunction of its literals. -/
def evalTerm (σ : String → Bool) (t : Term) : Bool :=
  t.Lits.all (evalLit σ)

/-- A term list denotes the disjunction (OR) of its product terms. -/
def evalTerms (σ : String → Bool) (ts : List Term) : Bool :=
  ts.any (evalTerm σ)

/-- An implicant matches a minterm code iff every care bit agrees. -/
def impMatches (p : implicant) (m : Nat) : Bool :=
  (m ^^^ p.value) &&& p.mask == 0

/-- The minterm code of an assignment relative to a variable list:
bit `i` is the value of variable `vars[i]`. -/
def codeOf (σ : String → Bool) : List String → Nat
  | [] => 0
  | v :: vs => (if σ v then 1 else 0) + 2 * codeOf σ vs

end cupl

namespace gal

/-- `Chip` from the source, with its three constants. -/
inductive Chip
  | Unknown
  | GAL16V8
  | GAL22V10
deriving DecidableEq

/-- `chipData.numPins` (0 for the zero value of the unknown chip). -/
def Chip.NumPins : Chip → Nat
  | .GAL16V8 => 20
  | .GAL22V10 => 24
  | .Unknown => 0

/-- `chipData.numRows`. -/
def Chip.NumRows : Chip → Nat
  | .GAL16V8 => 64
  | .GAL22V10 => 132
  | .Unknown => 0

/-- `chipData.numCols`. -/
def Chip.NumCols : Chip → Nat
  | .GAL16V8 => 32
  | .GAL22V10 => 44
  | .Unknown => 0

/-- `chipData.totalSize`. -/
def Chip.TotalSize : Chip → Nat
  | .GAL16V8 => 2194
  | .GAL22V10 => 5892
  | .Unknown => 0

/-- `chipData.minOLMC`. -/
def Chip.MinOLMCPin : Chip → Nat
  | .GAL16V8 => 12
  | .GAL22V10 => 14
  | .Unknown => 0

/-- `chipData.maxOLMC`. -/
def Chip.MaxOLMCPin : Chip → Nat
  | .GAL16V8 => 19
  | .GAL22V10 => 23
  | .Unknown => 0

/-- `Chip.NumOLMCs` from the source: `maxOLMC - minOLMC + 1`. -/
def Chip.NumOLMCs (c : Chip) : Nat := c.MaxOLMCPin - c.MinOLMCPin + 1

/-- `chipData.olmcMap`: start row of each OLMC's row block. -/
def Chip.olmcMap : Chip → List Nat
  | .GAL16V8 => [56, 48, 40, 32, 24, 16, 8, 0]
  | .GAL22V10 => [122, 111, 98, 83, 66, 49, 34, 21, 10, 1]
  | .Unknown => []

/-- `olmcSize22v10` from the source. -/
def olmcSize22v10 : List Nat := [9, 11, 13, 15, 17, 17, 15, 13, 11, 9]

/-- `Chip.PinToOLMC` from the source: `(pin - minOLMC, true)` when the pin
carries an OLMC, modelled as `Option`. -/
def Chip.PinToOLMC (c : Chip) (pin : Nat) : Option Nat :=
  if pin < c.MinOLMCPin ∨ pin > c.MaxOLMCPin then none
  else some (pin - c.MinOLMCPin)

/-- `Chip.NumRowsForOLMC` from the source. -/
def Chip.NumRowsForOLMC (c : Chip) (olmc : Nat) : Nat :=
  if c = Chip.GAL22V10 then olmcSize22v10.getD olmc 0 else 8

/-- `Bounds` from the source: the usable row range for an OLMC's terms. -/
structure Bounds where
  StartRow : Nat
  MaxRows : Nat
  RowOffset : Nat
deriving DecidableEq

/-- `Chip.BoundsForOLMC` from the source. -/
def Chip.BoundsForOLMC (c : Chip) (olmc : Nat) : Bounds :=
  { StartRow := c.olmcMap.getD olmc 0
    MaxRows := c.NumRowsForOLMC olmc
    RowOffset := 0 }

/-- `Pin` from the source: one input of an AND row. -/
structure Pin where
  Pin : Nat
  Neg : Bool
deriving DecidableEq

/-- `Term` from the source (`gal` package): an OR of AND rows. -/
structure Term where
  Line : Nat
  Pins : List (List Pin)
deriving DecidableEq

/-- `TrueTerm` from the source: one empty AND row. -/
def TrueTerm (line : Nat) : Term := ⟨line, [[]]⟩

/-- `FalseTerm` from the source: no AND rows. -/
def FalseTerm (line : Nat) : Term := ⟨line, []⟩

/-- `GAL` from the source: the fuse map under construction. -/
structure GAL where
  Chip : Chip
  Fuses : List Bool
  Xor : List Bool
  Sig : List Bool
  AC1 : List Bool
  PT : List Bool
  Syn : Bool
  AC0 : Bool
deriving DecidableEq

/-- `NewGAL` from the source: all logic fuses start at 1 (intact), all
discrete groups at 0. -/
def NewGAL (chip : Chip) : GAL :=
  { Chip := chip
    Fuses := List.replicate (chip.NumRows * chip.NumCols) true
    Xor := List.replicate chip.NumOLMCs false
    Sig := List.replicate 64 false
    AC1 := List.replicate chip.NumOLMCs false
    PT := List.replicate 64 false
    Syn := false
    AC0 := false }

/-- `SetSimpleMode` from the source: SYN=1, AC0=0. -/
def SetSimpleMode (g : GAL) : GAL := { g with Syn := true, AC0 := false }

/-- Modelled from the spec: `SetComplexMode` is called by the builder
(`BuildGAL` in the newer builder file) but its definition is not in the
provided sources; §4.5 of the specification fixes Complex mode as
(SYN, AC0) = (1, 1). -/
def SetComplexMode (g : GAL) : GAL := { g with Syn := true, AC0 := true }

/-- Modelled from the spec: `SetRegisteredMode` is called by the builder but
its definition is not in the provided sources; §4.5 of the specification
fixes Registered mode as (SYN, AC0) = (0, 1). -/
def SetRegisteredMode (g : GAL) : GAL := { g with Syn := false, AC0 := true }

/-- `pinToCol16Simple` from the source: the GAL16V8 simple-mode pin-to-column
table; pins 10 and 20 are power, pins 15 and 16 are not inputs. -/
def pinToCol16Simple (pin : Nat) : Except String Nat :=
  match pin with
  | 1 => .ok 2
  | 2 => .ok 0
  | 3 => .ok 4
  | 4 => .ok 8
  | 5 => .ok 12
  | 6 => .ok 16
  | 7 => .ok 20
  | 8 => .ok 24
  | 9 => .ok 28
  | 10 => .error "pin is power"
  | 11 => .ok 30
  | 12 => .ok 26
  | 13 => .ok 22
  | 14 => .ok 18
  | 15 => .error "pin is not an input in simple mode"
  | 16 => .error "pin is not an input in simple mode"
  | 17 => .ok 14
  | 18 => .ok 10
  | 19 => .ok 6
  | 20 => .error "pin is power"
  | _ => .error "invalid pin"

/-- Modelled from the spec: the GAL16V8 complex-mode pin-to-column table.
The newer `gal.go` keys the table on the operating mode (its caller
`BuildGAL` selects Complex/Registered modes), but only the simple-mode table
is in the provided sources.  §4.1 of the specification requires that in
Complex mode pins 15 and 16 gain input (feedback) columns while the power
pins keep failing; the feedback columns of the six inner OLMC pins take the
columns that pins 12–19 used in simple mode, shifted inward, so pins 12 and
19 lose their columns. -/
def pinToCol16Complex (pin : Nat) : Except String Nat :=
  match pin with
  | 1 => .ok 2
  | 2 => .ok 0
  | 3 => .ok 4
  | 4 => .ok 8
  | 5 => .ok 12
  | 6 => .ok 16
  | 7 => .ok 20
  | 8 => .ok 24
  | 9 => .ok 28
  | 10 => .error "pin is power"
  | 11 => .ok 30
  | 12 => .error "pin is not an input in complex mode"
  | 13 => .ok 26
  | 14 => .ok 22
  | 15 => .ok 18
  | 16 => .ok 14
  | 17 => .ok 10
  | 18 => .ok 6
  | 19 => .error "pin is not an input in complex mode"
  | 20 => .error "pin is power"
  | _ => .error "invalid pin"

/-- `pinToCol22v10` from the source: pins 12 and 24 are power. -/
def pinToCol22v10 (pin : Nat) : Except String Nat :=
  match pin with
  | 1 => .ok 0
  | 2 => .ok 4
  | 3 => .ok 8
  | 4 => .ok 12
  | 5 => .ok 16
  | 6 => .ok 20
  | 7 => .ok 24
  | 8 => .ok 28
  | 9 => .ok 32
  | 10 => .ok 36
  | 11 => .ok 40
  | 12 => .error "pin is power"
  | 13 => .ok 42
  | 14 => .ok 38
  | 15 => .ok 34
  | 16 => .ok 30
  | 17 => .ok 26
  | 18 => .ok 22
  | 19 => .ok 18
  | 20 => .ok 14
  | 21 => .ok 10
  | 22 => .ok 6
  | 23 => .ok 2
  | 24 => .error "pin is power"
  | _ => .error "invalid pin"

/-- `pinToColumn` from the source, keyed on the device and (for the GAL16V8)
on the operating mode recorded in the SYN/AC0 fuses.  The provided `gal.go`
only contains the simple-mode branch ("Only simple mode for GAL16V8"); the
mode keying and the complex table are modelled from §4.1 of the
specification.  Simple mode is SYN=1, AC0=0. -/
def pinToColumn (g : GAL) (pin : Nat) : Except String Nat :=
  if pin < 1 ∨ pin > g.Chip.NumPins then .error "invalid pin"
  else if g.Chip = Chip.GAL16V8 then
    if g.Syn ∧ ¬g.AC0 then pinToCol16Simple pin else pinToCol16Complex pin
  else if g.Chip = Chip.GAL22V10 then pinToCol22v10 pin
  else .error "unsupported chip"

/-- `setAnd` from the source: clear the fuse selecting (row, input), where a
negated input uses the odd column of the pair.  On error the fuse map is
unchanged (the source checks before writing).  The source's bounds check is
`idx >= len(g.fuses)`; the model tests the same condition as emptiness of
`drop idx`, which the kernel can evaluate without a deep recursion
(`drop_isEmpty_iff_length` below proves the two tests equal). -/
def setAnd (g : GAL) (row pin : Nat) (neg : Bool) : Except String GAL :=
  let rowLen := g.Chip.NumCols
  match pinToColumn g pin with
  | .error e => .error e
  | .ok col =>
    let off := if neg then 1 else 0
    let idx := row * rowLen + col + off
    if (g.Fuses.drop idx).isEmpty then .error "fuse index out of range"
    else .ok { g with Fuses := g.Fuses.set idx false }

/-- Clearing a contiguous index range of a fuse list: the `n` entries from
position `s` (those that exist) are set to `false`, everything else is kept.
The source writes the range with an index loop (`for i := start; i < stop;
i++ { g.fuses[i] = false }`); the splice below is the same elementwise
update, written with `take`/`drop` so that the kernel can evaluate the
result without one `List.set` node per cleared index
(`clearRange_eq_foldl` below proves it equal to the loop transcription). -/
def clearRange (l : List Bool) (s n : Nat) : List Bool :=
  l.take s ++ ((l.drop s).take n).map (fun _ => false) ++ l.drop (s + n)

/-- `clearRows` from the source: clear every fuse of the rows from
`StartRow + RowOffset` (inclusive) to `StartRow + MaxRows` (exclusive).
All call sites keep the cleared range inside the fuse list (in Go an
out-of-range write would panic; here it would be a no-op). -/
def clearRows (g : GAL) (bounds : Bounds) : GAL :=
  let rowLen := g.Chip.NumCols
  let start := (bounds.StartRow + bounds.RowOffset) * rowLen
  let stop := (bounds.StartRow + bounds.MaxRows) * rowLen
  let cleared := clearRange g.Fuses start (stop - start)
  { g with Fuses := cleared }

/-- The inner pin loop of `AddTerm`: place one AND row's inputs.  On a
`setAnd` error the fuses written so far remain (Go mutates in place). -/
def addRowPins : GAL → Nat → List Pin → GAL × Option String
  | g, _, [] => (g, none)
  | g, row, p :: ps =>
    match setAnd g row p.Pin p.Neg with
    | .ok g' => addRowPins g' row ps
    | .error e => (g, some e)

/-- The row loop of `AddTerm`; `singleRow` is computed by `AddTerm` from the
initial bounds. -/
def addTermRows : GAL → Bool → List (List Pin) → Bounds → GAL × Option String
  | g, _, [], b => (clearRows g b, none)
  | g, singleRow, row :: rest, b =>
    if b.RowOffset = b.MaxRows then
      (g, some (if singleRow then "more than one product term"
                else "too many product terms"))
    else
      match addRowPins g (b.StartRow + b.RowOffset) row with
      | (g', none) =>
        addTermRows g' singleRow rest
          { b with RowOffset := b.RowOffset + 1 }
      | (g', some e) => (g', some e)

/-- `AddTerm` from the source.  The returned `GAL` is the state of the fuse
map after the call, also on the error path (Go mutates the receiver). -/
def AddTerm (g : GAL) (term : Term) (bounds : Bounds) : GAL × Option String :=
  addTermRows g (decide (bounds.MaxRows = bounds.RowOffset + 1)) term.Pins bounds

/-- `AddTermOpt` from the source: a missing term places `FalseTerm`. -/
def AddTermOpt (g : GAL) (term : Option Term) (bounds : Bounds) :
    GAL × Option String :=
  match term with
  | none => AddTerm g (FalseTerm 0) bounds
  | some t => AddTerm g t bounds

/-- `Active` from the source: output polarity. -/
inductive Active
  | ActiveLow
  | ActiveHigh
deriving DecidableEq

/-- `Mode` from the source: the GAL16V8 operating mode. -/
inductive Mode
  | ModeAuto
  | ModeSimple
  | ModeComplex
  | ModeRegistered
deriving DecidableEq

/-- `OLMC` from the source (newer builder): per-output state. -/
structure OLMC where
  Active : Active
  Output : Option Term
  Feedback : Bool
  Registered : Bool
  OETerm : Option Term
deriving DecidableEq

instance : Inhabited OLMC := ⟨⟨Active.ActiveLow, none, false, false, none⟩⟩

/-- `Blueprint` from the source (newer builder).  `Sig` is the signature
byte string (each entry a byte value < 256). -/
structure Blueprint where
  Chip : Chip
  Pins : List String
  Sig : List Nat
  OLMC : List OLMC
  AR : Option Term
  SP : Option Term
  ModeHint : Mode
deriving DecidableEq

/-- `NewBlueprint` from the source: every OLMC starts inactive and
active-low, pins get placeholder names. -/
def NewBlueprint (chip : Chip) : Blueprint :=
  { Chip := chip
    Pins := (List.range chip.NumPins).map (fun i => "PIN" ++ toString (i + 1))
    Sig := []
    OLMC := List.replicate chip.NumOLMCs
      ⟨Active.ActiveLow, none, false, false, none⟩
    AR := none
    SP := none
    ModeHint := Mode.ModeAuto }

/-- `detectMode` from the source: forced hint, else registered, else explicit
OE, else pins 15/16 used as inputs, else output-with-feedback, else simple. -/
def detectMode (bp : Blueprint) : Mode :=
  if bp.ModeHint ≠ Mode.ModeAuto then bp.ModeHint
  else if bp.OLMC.any (fun o => o.Registered) then Mode.ModeRegistered
  else if bp.OLMC.any (fun o => o.OETerm.isSome) then Mode.ModeComplex
  else if bp.OLMC.any (fun o =>
    match o.Output with
    | some t => t.Pins.any (fun row => row.any (fun p => p.Pin = 15 ∨ p.Pin = 16))
    | none => false) then Mode.ModeComplex
  else if bp.OLMC.any (fun o => o.Feedback ∧ o.Output.isSome) then Mode.ModeComplex
  else Mode.ModeSimple

/-- `setSig` from the source: pack up to 8 signature bytes MSB-first into the
SIG fuse bits.  `(c << j) & 0x80 != 0` on a byte is bit `7 - j` of `c`. -/
def setSig (g : GAL) (sig : List Nat) : GAL :=
  (sig.take 8).enum.foldl
    (fun g ic =>
      (List.range 8).foldl
        (fun g j =>
          let bit := decide (((ic.2 <<< j) &&& 0x80) ≠ 0)
          { g with Sig := g.Sig.set (ic.1 * 8 + j) bit })
        g)
    g

/-- `setTristate` from the source (newer builder): AC1 bits per OLMC,
written at the mirrored index `olmcs - 1 - i`. -/
def setTristate (g : GAL) (bp : Blueprint) : GAL :=
  let comIsTri :=
    if bp.Chip = Chip.GAL22V10 then true
    else if bp.Chip = Chip.GAL16V8 then g.AC0
    else false
  let isSimple := bp.Chip = Chip.GAL16V8 ∧ g.Syn ∧ ¬g.AC0
  let olmcs := bp.OLMC.length
  bp.OLMC.enum.foldl
    (fun g io =>
      let isTri :=
        match io.2.Output with
        | none => if isSimple then true else io.2.Feedback
        | some _ => if io.2.Registered then false else comIsTri
      if isTri then { g with AC1 := g.AC1.set (olmcs - 1 - io.1) true } else g)
    g

/-- `setXors` from the source: XOR bit set for active-high outputs, written
at the mirrored index. -/
def setXors (g : GAL) (bp : Blueprint) : GAL :=
  let olmcs := bp.OLMC.length
  bp.OLMC.enum.foldl
    (fun g io =>
      if io.2.Output.isSome ∧ io.2.Active = Active.ActiveHigh then
        { g with Xor := g.Xor.set (olmcs - 1 - io.1) true }
      else g)
    g

/-- `setPTs` from the source: all 64 product-term disable bits to 1. -/
def setPTs (g : GAL) : GAL := { g with PT := g.PT.map (fun _ => true) }

/-- `setARSP` from the source (newer builder): place AR into row 0 and SP
into row 131 of the 22V10 grid (the default `FalseTerm` clears the row). -/
def setARSP (g : GAL) (bp : Blueprint) : Except String GAL :=
  if g.Chip ≠ Chip.GAL22V10 then .ok g
  else
    match AddTermOpt g bp.AR ⟨0, 1, 0⟩ with
    | (_, some e) => .error e
    | (g1, none) =>
      match AddTermOpt g1 bp.SP ⟨131, 1, 0⟩ with
      | (_, some e) => .error e
      | (g2, none) => .ok g2

/-- `setCoreEqns` from the source (newer builder): place every OLMC's output
terms, reserving row 0 of the block for the OE term on the 22V10 and in
GAL16V8 complex mode. -/
def setCoreEqns (g : GAL) (bp : Blueprint) : Except String GAL :=
  let isComplex := bp.Chip = Chip.GAL16V8 ∧ g.Syn ∧ g.AC0
  let hasOERow := bp.Chip = Chip.GAL22V10 ∨ isComplex
  bp.OLMC.enum.foldl
    (fun (acc : Except String GAL) io =>
      match acc with
      | .error e => .error e
      | .ok g =>
        let bounds := g.Chip.BoundsForOLMC io.1
        if hasOERow ∧ io.2.Output.isSome then
          let afterOE : Except String GAL :=
            match io.2.OETerm with
            | some oe =>
              match AddTerm g oe ⟨bounds.StartRow, 1, 0⟩ with
              | (_, some e) => .error e
              | (g', none) => .ok g'
            | none => .ok g
          match afterOE with
          | .error e => .error e
          | .ok g' =>
            match AddTermOpt g' io.2.Output
                { bounds with RowOffset := 1 } with
            | (_, some e) => .error e
            | (g'', none) => .ok g''
        else
          match AddTermOpt g io.2.Output bounds with
          | (_, some e) => .error e
          | (g', none) => .ok g')
    (Except.ok g)

/-- `BuildGAL` from the source (newer builder): mode selection, then the
discrete fuse groups, then AR/SP and the per-OLMC rows. -/
def BuildGAL (bp : Blueprint) : Except String GAL :=
  let g0 := NewGAL bp.Chip
  let g1 :=
    if bp.Chip = Chip.GAL16V8 then
      match detectMode bp with
      | Mode.ModeSimple => SetSimpleMode g0
      | Mode.ModeComplex => SetComplexMode g0
      | Mode.ModeRegistered => SetRegisteredMode g0
      | Mode.ModeAuto => g0
    else g0
  let g2 := setXors (setTristate (setSig g1 bp.Sig) bp) bp
  let afterARSP :=
    if bp.Chip = Chip.GAL22V10 then setARSP g2 bp else .ok g2
  match afterARSP with
  | .error e => .error e
  | .ok g3 =>
    match setCoreEqns g3 bp with
    | .error e => .error e
    | .ok g4 => .ok (setPTs g4)

end gal

namespace jed

/-- `Config` from the source. -/
structure Config where
  SecurityBit : Bool
  Header : List String
deriving DecidableEq

/-- `checkSummer` from the source: packs the fuse bits LSB-first into bytes
and keeps a running 16-bit sum.  `sum` is a Go `uint16`, so additions wrap
modulo `2 ^ 16`; `byte` stays below `2 ^ 8` because only bits 0–7 are set. -/
structure checkSummer where
  bitNum : Nat
  byte : Nat
  sum : Nat
deriving DecidableEq

/-- `checkSummer.add` from the source. -/
def checkSummer.add (c : checkSummer) (bit : Bool) : checkSummer :=
  let b := if bit then c.byte ||| (1 <<< c.bitNum) else c.byte
  let n := c.bitNum + 1
  if n = 8 then { bitNum := 0, byte := 0, sum := (c.sum + b) % 65536 }
  else { c with bitNum := n, byte := b }

/-- `checkSummer.get` from the source: the trailing partial byte is added
as-is. -/
def checkSummer.get (c : checkSummer) : Nat := (c.sum + c.byte) % 65536

/-- ASCII bytes of the decimal representation of `n` (Go `%d`), via
sufficient fuel to keep the recursion structural. -/
def decBytesAux : Nat → Nat → List Nat
  | 0, _ => []
  | fuel + 1, n => if n < 10 then [48 + n] else decBytesAux fuel (n / 10) ++ [48 + n % 10]

/-- ASCII bytes of the decimal representation of `n` (Go `%d`). -/
def decBytes (n : Nat) : List Nat := decBytesAux (n + 1) n

/-- ASCII bytes of Go's `%05d`: five decimal digits, zero padded (all `*L`
offsets of the supported chips are below 100000). -/
def dec5Bytes (n : Nat) : List Nat :=
  [48 + n / 10000 % 10, 48 + n / 1000 % 10, 48 + n / 100 % 10,
   48 + n / 10 % 10, 48 + n % 10]

/-- One lowercase hex digit. -/
def hexDigit (d : Nat) : Nat := if d < 10 then 48 + d else 97 + (d - 10)

/-- ASCII bytes of Go's `%04x` for a `uint16` value. -/
def hex4Bytes (n : Nat) : List Nat :=
  [hexDigit (n >>> 12 &&& 15), hexDigit (n >>> 8 &&& 15),
   hexDigit (n >>> 4 &&& 15), hexDigit (n &&& 15)]

/-- The bytes of an ASCII string (the emitter only writes ASCII; Go writes
the UTF-8 bytes, which agree on ASCII). -/
def strBytes (s : String) : List Nat := s.data.map (fun c => c.val.toNat)

/-- `fuseBuilder` from the source: the output buffer (as bytes), the
checksummer, the next fuse index and whether a `*L` line is open. -/
structure fuseBuilder where
  out : List Nat
  cs : checkSummer
  idx : Nat
  openLine : Bool
deriving DecidableEq

/-- `fuseBuilder.startLine` from the source: open a `*L<idx> ` line. -/
def fuseBuilder.startLine (f : fuseBuilder) : fuseBuilder :=
  if f.openLine then f
  else { f with out := f.out ++ strBytes "*L" ++ dec5Bytes f.idx ++ [32],
                openLine := true }

/-- `fuseBuilder.endLine` from the source. -/
def fuseBuilder.endLine (f : fuseBuilder) : fuseBuilder :=
  if f.openLine then { f with out := f.out ++ [10], openLine := false } else f

/-- `fuseBuilder.addBit` from the source: emit `0`/`1`, feed the checksummer,
advance the fuse index. -/
def fuseBuilder.addBit (f : fuseBuilder) (b : Bool) : fuseBuilder :=
  let f := f.startLine
  { f with out := f.out ++ [48 + (if b then 1 else 0)],
           cs := f.cs.add b, idx := f.idx + 1 }

/-- `fuseBuilder.add` from the source: emit a whole bit group on one line. -/
def fuseBuilder.add (f : fuseBuilder) (bits : List Bool) : fuseBuilder :=
  (bits.foldl (fun f b => f.addBit b) f.startLine).endLine

/-- `fuseBuilder.skip` from the source: no output, but the skipped bits still
feed the checksummer and advance the index.  The source's loop adds one bit
and increments `idx` per iteration; the model feeds the checksummer the same
bits in the same order and advances `idx` by the loop's net effect
`bits.length`, so the kernel does not build one `+ 1` thunk per skipped
fuse. -/
def fuseBuilder.skip (f : fuseBuilder) (bits : List Bool) : fuseBuilder :=
  { f with cs := bits.foldl (fun c _ => c.add false) f.cs,
           idx := f.idx + bits.length }

/-- `fuseBuilder.checksum` from the source: close any open line and emit
`*C<sum>`. -/
def fuseBuilder.checksum (f : fuseBuilder) : fuseBuilder :=
  let f := f.endLine
  { f with out := f.out ++ strBytes "*C" ++ hex4Bytes f.cs.get ++ [10] }

/-- `anyTrue` from the source. -/
def anyTrue (bits : List Bool) : Bool := bits.any id

/-- `fileChecksum` from the source: 16-bit sum of all bytes. -/
def fileChecksum (data : List Nat) : Nat :=
  data.foldl (fun s b => (s + b) % 65536) 0

/-- One row-sized chunk of the fuse list per step (the emitter's
`row += rowLen` loop), with fuel: the supported chips have at most 132
grid rows, so the fuel `8192` passed by `fuseRows` covers every fuse list
the emitter meets. -/
def fuseRowsAux (k : Nat) : Nat → List Bool → List (List Bool)
  | 0, _ => []
  | _, [] => []
  | fuel + 1, l => l.take k :: fuseRowsAux k fuel (l.drop k)

/-- The fuse grid split into rows (the emitter's `row += rowLen` loop). -/
def fuseRows (fuses : List Bool) (rowLen : Nat) : List (List Bool) :=
  fuseRowsAux rowLen 8192 fuses

/-- Whether a header line already ends in a newline (Go
`strings.HasSuffix(line, "\n")`). -/
def endsInNewline (s : String) : Bool :=
  match s.data.getLast? with
  | some c => c.val.toNat = 10
  | none => false

/-- The fuse-line emission of `MakeJEDEC` (its `fb` phase): the fuse grid
row by row (all-zero rows are skipped but still checksummed), then the
discrete groups (XOR/AC1 interleaved on the 22V10; XOR, SIG, AC1, PT, SYN,
AC0 on the 16V8). -/
def emitFuses (g : gal.GAL) : fuseBuilder :=
  let fb0 : fuseBuilder := ⟨[], ⟨0, 0, 0⟩, 0, false⟩
  let fb1 := (fuseRows g.Fuses g.Chip.NumCols).foldl
    (fun fb chunk => if anyTrue chunk then fb.add chunk else fb.skip chunk) fb0
  let fb2 :=
    if g.Chip ≠ gal.Chip.GAL22V10 then fb1.add g.Xor
    else
      ((g.Xor.zip g.AC1).foldl
        (fun fb xa => (fb.addBit xa.1).addBit xa.2) fb1).endLine
  let fb3 := fb2.add g.Sig
  if g.Chip = gal.Chip.GAL16V8 then
    (((fb3.add g.AC1).add g.PT).add [g.Syn]).add [g.AC0]
  else fb3

/-- `MakeJEDEC` from the source, producing the output byte string (see the
section marker above for the layout). -/
def MakeJEDEC (cfg : Config) (g : gal.GAL) : List Nat :=
  let header := (cfg.Header.map
    (fun line => strBytes line ++ (if endsInNewline line then [] else [10]))).flatten
  let pre := [2, 10] ++ header
    ++ strBytes "*F0" ++ [10]
    ++ (if cfg.SecurityBit then strBytes "*G1" else strBytes "*G0") ++ [10]
    ++ strBytes "*QF" ++ decBytes g.Chip.TotalSize ++ [10]
  let fb5 := (emitFuses g).checksum
  let body := pre ++ fb5.out ++ strBytes "*" ++ [10, 3]
  body ++ hex4Bytes (fileChecksum body) ++ [10]

/-! Specification-side definitions for the fuse checksum (written from the
specification's words, to be compared with the emitter's `checkSummer`). -/

/-- The value of a byte packed from bits LSB-first. -/
def bitsByteVal : List Bool → Nat
  | [] => 0
  | b :: bs => (if b then 1 else 0) + 2 * bitsByteVal bs

/-- Pack a bit string into bytes, 8 bits per byte LSB-first, any trailing
partial byte packed as-is. -/
def packBytes : List Bool → List Nat
  | [] => []
  | b1 :: b2 :: b3 :: b4 :: b5 :: b6 :: b7 :: b8 :: rest =>
    bitsByteVal [b1, b2, b3, b4, b5, b6, b7, b8] :: packBytes rest
  | rest => [bitsByteVal rest]

/-- The specification's fuse checksum: the 16-bit unsigned sum of the packed
fuse bytes. -/
def specFuseChecksum (bits : List Bool) : Nat :=
  (packBytes bits).foldl (fun s b => (s + b) % 65536) 0

/-- XOR and AC1 bits interleaved (the 22V10 emission order). -/
def interleaveBits (xs ys : List Bool) : List Bool :=
  ((xs.zip ys).map (fun p => [p.1, p.2])).flatten

/-- Every bit of the fuse map in the order `MakeJEDEC` feeds them to the
checksummer (skipped all-zero grid rows included). -/
def fuseBitsOf (g : gal.GAL) : List Bool :=
  (fuseRows g.Fuses g.Chip.NumCols).flatten
  ++ (if g.Chip ≠ gal.Chip.GAL22V10 then g.Xor else interleaveBits g.Xor g.AC1)
  ++ g.Sig
  ++ (if g.Chip = gal.Chip.GAL16V8 then g.AC1 ++ g.PT ++ [g.Syn, g.AC0] else [])

end jed

namespace cupl

/-- `Expr` from the source AST: the expression sum type. -/
inductive Expr
  | ExprConst (Value : Bool)
  | ExprIdent (Name : String)
  | ExprNot (X : Expr)
  | ExprAnd (A B : Expr)
  | ExprOr (A B : Expr)
  | ExprXor (A B : Expr)
  | ExprFieldRange (Field : String) (Lo Hi : Nat)
  | ExprFieldEquality (Field : String) (Value Mask : Nat)
  | ExprIdentList (Names : List String)
deriving DecidableEq

open Expr

/-- `FieldBit` from the source AST. -/
structure FieldBit where
  Name : String
  BitNumber : Nat
  HasNumber : Bool
deriving DecidableEq

/-- `Field` from the source AST. -/
structure Field where
  Name : String
  Bits : List FieldBit
deriving DecidableEq

/-- `PinDef` from the source AST. -/
structure PinDef where
  Name : String
  ActiveLow : Bool
deriving DecidableEq

/-- `Equation` from the source AST. -/
structure Equation where
  Line : Nat
  LHS : String
  Expr : Expr
  Append : Bool
deriving DecidableEq

/-- `Content` from the source AST.  The Go maps (`Meta`, `Pins`, `Fields`)
are modelled as association lists with unique keys; the list order of `Pins`
is the iteration order the model uses for Go's (unspecified) map range
order in `Compile`. -/
structure Content where
  Meta : List (String × String)
  Device : String
  Pins : List (Nat × PinDef)
  Fields : List (String × Field)
  Equations : List Equation
deriving DecidableEq

/-- First-match lookup in an association list (Go map lookup; the model
keeps keys unique). -/
def lookupA {κ α : Type} [DecidableEq κ] : List (κ × α) → κ → Option α
  | [], _ => none
  | (k, v) :: rest, n => if k = n then some v else lookupA rest n

/-- Go map insert `m[k] = v`: replace the existing binding or append. -/
def upsertA {κ α : Type} [DecidableEq κ] : List (κ × α) → κ → α → List (κ × α)
  | [], n, v => [(n, v)]
  | (k, w) :: rest, n, v =>
    if k = n then (k, v) :: rest else (k, w) :: upsertA rest n v

instance : Inhabited FieldBit := ⟨⟨"", 0, false⟩⟩

/-- `Symbol` from the source (`compile.go`). -/
structure Symbol where
  Pin : Nat
  ActiveLow : Bool
deriving DecidableEq

/-- `projectValue` from the source: project a user-space value through the
field's bit numbering; fields that are not fully numbered are masked to the
field width. -/
def projectValue (field : Field) (v : Nat) : Nat :=
  let width := field.Bits.length
  if width = 0 then 0
  else if field.Bits.all (fun b => b.HasNumber) then
    field.Bits.foldl (fun out b => 2 * out + ((v >>> b.BitNumber) &&& 1)) 0
  else v &&& (2 ^ width - 1)

/-- `cube` from the source: a (mask, value) pair covering a contiguous run. -/
structure cube where
  mask : Nat
  value : Nat
deriving DecidableEq

/-- The doubling loop of `maxBlockSize` (`for maxPow<<1 <= remaining`),
with fuel for structural recursion (`remaining` is always enough fuel,
since the argument at least doubles each step). -/
def maxPowAux : Nat → Nat → Nat → Nat
  | 0, m, _ => m
  | fuel + 1, m, r => if m * 2 ≤ r then maxPowAux fuel (m * 2) r else m

/-- `maxBlockSize` from the source: the largest power of two that is at most
`remaining`, further limited by the lowest set bit of `lo` when `lo ≠ 0`
(`lo & -lo` in two's complement is the lowest set bit). -/
def maxBlockSize (lo remaining : Nat) : Nat :=
  if remaining = 0 then 0
  else
    let maxPow := maxPowAux remaining 1 remaining
    if lo = 0 then maxPow
    else
      let lsb := lo &&& ((2 ^ 64 - lo) % 2 ^ 64)
      if lsb < maxPow then lsb else maxPow

/-- The `k` loop of `rangeToCubes` (`for 1<<k < blockSize`), with fuel. -/
def log2Aux : Nat → Nat → Nat → Nat
  | 0, k, _ => k
  | fuel + 1, k, b => if (1 <<< k) < b then log2Aux fuel (k + 1) b else k

/-- The body of `rangeToCubes` as a fuelled loop; each iteration advances
`lo` by at least 1, so `hi + 1 - lo` is enough fuel. -/
def rangeToCubesAux : Nat → Nat → Nat → Nat → List cube
  | 0, _, _, _ => []
  | fuel + 1, lo, hi, width =>
    if lo > hi then []
    else
      let remaining := hi - lo + 1
      let blockSize := maxBlockSize lo remaining
      let k := log2Aux (blockSize + 1) 0 blockSize
      let mask₀ := 2 ^ width - 1
      let mask := if k > 0 then andNot mask₀ ((1 <<< k) - 1) else mask₀
      ⟨mask, lo⟩ :: rangeToCubesAux fuel (lo + blockSize) hi width

/-- `rangeToCubes` from the source: the lo-aligned greedy power-of-two block
decomposition of `[lo, hi]` into cubes. -/
def rangeToCubes (lo hi width : Nat) : List cube :=
  if lo > hi then [] else rangeToCubesAux (hi + 1 - lo) lo hi width

/-- The literals of one range cube (the inner loop of `fieldRangeTerms`):
one literal per care bit, LSB bit index mapped to the field's last name. -/
def cubeTerm (c : cube) (field : Field) : Term :=
  let width := field.Bits.length
  ⟨(List.range width).filterMap (fun bit =>
    if c.mask >>> bit &&& 1 = 0 then none
    else
      let idx := width - 1 - bit
      some ⟨(field.Bits.getD idx default).Name, c.value >>> bit &&& 1 == 0⟩)⟩

/-- `fieldRangeTerms` from the source: project and order the endpoints,
complement the interval when negated, decompose into cubes and emit one
product term per cube. -/
def fieldRangeTerms (fieldName : String) (lo hi : Nat) (negated : Bool)
    (fields : List (String × Field)) : Except String (List Term) :=
  match lookupA fields fieldName with
  | none => .error "unknown field"
  | some field =>
    let width := field.Bits.length
    if width = 0 then .error "field has no bits"
    else
      let projLo := projectValue field lo
      let projHi := projectValue field hi
      let pLo := if projLo > projHi then projHi else projLo
      let pHi := if projLo > projHi then projLo else projHi
      let maxVal := 2 ^ width - 1
      let ranges : List (Nat × Nat) :=
        if ¬negated then [(pLo, pHi)]
        else
          (if pLo > 0 then [(0, pLo - 1)] else []) ++
          (if pHi < maxVal then [(pHi + 1, maxVal)] else [])
      .ok ((ranges.map (fun r =>
        (rangeToCubes r.1 r.2 width).map (fun c => cubeTerm c field))).flatten)

/-- `fieldEqualityTerms` from the source: one AND term with a literal per
care bit (MSB first over the field's bit list). -/
def fieldEqualityTerms (fieldName : String) (v mask : Nat)
    (fields : List (String × Field)) : Except String (List Term) :=
  match lookupA fields fieldName with
  | none => .error "unknown field"
  | some field =>
    let width := field.Bits.length
    if width = 0 then .error "field has no bits"
    else
      let projValue' := projectValue field v
      let projMask := projectValue field mask
      .ok [⟨(List.range width).filterMap (fun i =>
        let bitPos := width - 1 - i
        if projMask >>> bitPos &&& 1 = 0 then none
        else some ⟨(field.Bits.getD i default).Name,
          projValue' >>> bitPos &&& 1 == 0⟩)⟩]

/-- `fieldEqualityTermsNeg` from the source: the OR of single-literal terms,
one per care bit, each with the bit flipped. -/
def fieldEqualityTermsNeg (fieldName : String) (v mask : Nat)
    (fields : List (String × Field)) : Except String (List Term) :=
  match lookupA fields fieldName with
  | none => .error "unknown field"
  | some field =>
    let width := field.Bits.length
    if width = 0 then .error "field has no bits"
    else
      let projValue' := projectValue field v
      let projMask := projectValue field mask
      .ok ((List.range width).filterMap (fun i =>
        let bitPos := width - 1 - i
        if projMask >>> bitPos &&& 1 = 0 then none
        else some ⟨[⟨(field.Bits.getD i default).Name,
          projValue' >>> bitPos &&& 1 == 1⟩]⟩))

/-- `mergeTerms` from the source: union of the two literal maps, `none` on a
polarity conflict; the result's literals are sorted by name.  The Go literal
map is modelled as an association list in insertion order (its iteration
order does not matter because the result is sorted and names are unique). -/
def mergeTerms (a b : Term) : Option Term :=
  let m0 := a.Lits.foldl (fun m l => upsertA m l.Name l.Neg) []
  let m1 := b.Lits.foldl
    (fun (acc : Option (List (String × Bool))) l =>
      match acc with
      | none => none
      | some m =>
        match lookupA m l.Name with
        | some neg => if neg ≠ l.Neg then none else some m
        | none => some (m ++ [(l.Name, l.Neg)]))
    (some m0)
  match m1 with
  | none => none
  | some m =>
    some ⟨sortBy (fun a b => strLE a.Name b.Name)
      (m.map (fun kv => ⟨kv.1, kv.2⟩))⟩

/-- `andDNF` from the source: pair each term of `b` (outer) with each term of
`a` (inner), dropping contradictions. -/
def andDNF (a b : List Term) : List Term :=
  if a.isEmpty ∨ b.isEmpty then []
  else
    b.foldl (fun out tb =>
      a.foldl (fun out ta =>
        match mergeTerms ta tb with
        | some t => out ++ [t]
        | none => out) out) []

/-- `dnf` from the source: convert an NNF expression to a sum of products. -/
def dnf (e : Expr) (fields : List (String × Field)) : Except String (List Term) :=
  match e with
  | ExprConst v => if v then .ok [⟨[]⟩] else .ok []
  | ExprIdent n => .ok [⟨[⟨n, false⟩]⟩]
  | ExprNot x =>
    match x with
    | ExprIdent n => .ok [⟨[⟨n, true⟩]⟩]
    | ExprFieldRange f lo hi => fieldRangeTerms f lo hi true fields
    | ExprFieldEquality f v m => fieldEqualityTermsNeg f v m fields
    | _ => .error "unsupported negation"
  | ExprFieldRange f lo hi => fieldRangeTerms f lo hi false fields
  | ExprFieldEquality f v m => fieldEqualityTerms f v m fields
  | ExprAnd a b =>
    match dnf a fields, dnf b fields with
    | .ok l, .ok r => .ok (andDNF l r)
    | .error e, _ => .error e
    | _, .error e => .error e
  | ExprOr a b =>
    match dnf a fields, dnf b fields with
    | .ok l, .ok r => .ok (l ++ r)
    | .error e, _ => .error e
    | _, .error e => .error e
  | _ => .error "unsupported expression"

end cupl

/-! String helpers shared by the device parsing and the equation LHS
grammar.  Go operates on UTF-8 strings; every string the compiler handles
is ASCII, on which these character-list models agree with Go. -/

/-- ASCII whitespace (the characters Go's `strings.TrimSpace` strips from
the compiler's ASCII inputs). -/
def isSpaceChar (c : Char) : Bool :=
  c.val.toNat = 32 ∨ c.val.toNat = 9 ∨ c.val.toNat = 10 ∨
  c.val.toNat = 13 ∨ c.val.toNat = 11 ∨ c.val.toNat = 12

/-- Go `strings.TrimSpace`. -/
def trimSpace (s : String) : String :=
  ⟨((s.data.dropWhile isSpaceChar).reverse.dropWhile isSpaceChar).reverse⟩

/-- Go `strings.ToUpper` on ASCII. -/
def toUpperStr (s : String) : String :=
  ⟨s.data.map (fun c =>
    if 97 ≤ c.val.toNat ∧ c.val.toNat ≤ 122 then Char.ofNat (c.val.toNat - 32)
    else c)⟩

/-- Whether `l` starts with `p` (Go `strings.HasPrefix` on the data). -/
def listStartsWith [DecidableEq α] : List α → List α → Bool
  | _, [] => true
  | [], _ :: _ => false
  | x :: xs, y :: ys => x = y && listStartsWith xs ys

/-- Go `strings.Contains` (substring at any offset). -/
def containsStr (s sub : String) : Bool :=
  (List.range (s.data.length + 1)).any
    (fun i => listStartsWith (s.data.drop i) sub.data)

/-- Go `strings.HasSuffix`. -/
def endsWithStr (s suffix : String) : Bool :=
  listStartsWith (s.data.reverse) (suffix.data.reverse)

/-- Go `strings.Index` for a single character: first index, or `none`. -/
def indexOfChar (s : String) (c : Char) : Option Nat :=
  s.data.findIdx? (fun d => d = c)

namespace gal

/-- `normalizeDevice` from the source: keep letters and digits, uppercase,
and expand a leading `G` to `GAL` when at least five characters remain. -/
def normalizeDevice (name : String) : String :=
  let buf := name.data.filterMap (fun r =>
    if 65 ≤ r.val.toNat ∧ r.val.toNat ≤ 90 then some r
    else if 97 ≤ r.val.toNat ∧ r.val.toNat ≤ 122 then
      some (Char.ofNat (r.val.toNat - 32))
    else if 48 ≤ r.val.toNat ∧ r.val.toNat ≤ 57 then some r
    else none)
  let upper : String := ⟨buf⟩
  if buf.length ≥ 5 ∧ buf.headD 'x' = 'G' then ⟨'G' :: 'A' :: 'L' :: buf.tail⟩
  else upper

/-- `ParseChip` from the source. -/
def ParseChip (name : String) : Except String Chip :=
  let n := normalizeDevice name
  if containsStr n "16V8" then .ok Chip.GAL16V8
  else if containsStr n "22V10" then .ok Chip.GAL22V10
  else .error "unsupported device"

/-- Modelled from the spec: `ParseModeHint` is called by `Compile` but its
definition is not in the provided sources.  §6's device-string grammar says a
trailing mnemonic `AS`/`MA`/`MS` forces GAL16V8 Simple/Complex/Registered
respectively (case-insensitive, so it is read off the normalized name). -/
def ParseModeHint (name : String) : Mode :=
  let n := normalizeDevice name
  if endsWithStr n "AS" then Mode.ModeSimple
  else if endsWithStr n "MA" then Mode.ModeComplex
  else if endsWithStr n "MS" then Mode.ModeRegistered
  else Mode.ModeAuto

end gal

namespace cupl

open Expr

/-- `LHSInfo` from the source. -/
structure LHSInfo where
  Name : String
  ActiveLow : Bool
  Extension : String
deriving DecidableEq

/-- `parseEquationLHS` from the source: optional `!`, optional `.EXT` with
`OE` normalized to `E` and `D` to `R`. -/
def parseEquationLHS (lhs : String) : Except String LHSInfo :=
  let l₀ := trimSpace lhs
  if l₀.data.isEmpty then .error "invalid equation LHS"
  else
    let activeLow := listStartsWith l₀.data ['!']
    let l₁ := if activeLow then trimSpace ⟨l₀.data.tail⟩ else l₀
    if l₁.data.isEmpty then .error "invalid equation LHS"
    else
      match indexOfChar l₁ '.' with
      | some idx =>
        let rawExt := toUpperStr ⟨l₁.data.drop (idx + 1)⟩
        let ext :=
          if rawExt = "OE" then "E"
          else if rawExt = "D" then "R"
          else rawExt
        .ok ⟨⟨l₁.data.take idx⟩, activeLow, ext⟩
      | none => .ok ⟨l₁, activeLow, ""⟩

/-- `isGlobalSignal` from the source: `AR` and `SP`, case-insensitive. -/
def isGlobalSignal (name : String) : Bool :=
  toUpperStr name = "AR" ∨ toUpperStr name = "SP"

/-- Node count of an expression, used to compute the (provably irrelevant
for the claims below, generously sufficient) fuel of `toNNF`. -/
def exprSize : Expr → Nat
  | ExprNot x => exprSize x + 1
  | ExprAnd a b | ExprOr a b | ExprXor a b => exprSize a + exprSize b + 1
  | _ => 1

/-- `toNNF` from the source: negation pushdown with alias expansion and
cycle detection.  The Go recursion terminates because the `visiting` set
bounds alias expansion; the model uses fuel instead (`exprToTerms` passes a
bound that covers every input the compiler meets; exhaustion yields an
error, which never weakens an error-safety theorem). -/
def toNNF : Nat → Expr → Bool → List (String × Expr) → List String →
    Except String Expr
  | 0, _, _, _, _ => .error "expression too deep"
  | fuel + 1, e, neg, aliases, visiting =>
    match e with
    | ExprConst v => .ok (ExprConst (if neg then !v else v))
    | ExprIdent n =>
      match lookupA aliases n with
      | some aliasBody =>
        if n ∈ visiting then .error "cyclic alias"
        else toNNF fuel aliasBody neg aliases (n :: visiting)
      | none => .ok (if neg then ExprNot (ExprIdent n) else ExprIdent n)
    | ExprFieldRange _ _ _ => .ok (if neg then ExprNot e else e)
    | ExprFieldEquality _ _ _ => .ok (if neg then ExprNot e else e)
    | ExprNot x => toNNF fuel x (!neg) aliases visiting
    | ExprAnd a b =>
      match toNNF fuel a neg aliases visiting,
            toNNF fuel b neg aliases visiting with
      | .ok l, .ok r => .ok (if neg then ExprOr l r else ExprAnd l r)
      | .error err, _ => .error err
      | _, .error err => .error err
    | ExprOr a b =>
      match toNNF fuel a neg aliases visiting,
            toNNF fuel b neg aliases visiting with
      | .ok l, .ok r => .ok (if neg then ExprAnd l r else ExprOr l r)
      | .error err, _ => .error err
      | _, .error err => .error err
    | ExprXor a b =>
      if neg then
        match toNNF fuel (ExprAnd a b) false aliases visiting,
              toNNF fuel (ExprAnd (ExprNot a) (ExprNot b)) false aliases visiting with
        | .ok l, .ok r => .ok (ExprOr l r)
        | .error err, _ => .error err
        | _, .error err => .error err
      else
        match toNNF fuel (ExprAnd a (ExprNot b)) false aliases visiting,
              toNNF fuel (ExprAnd (ExprNot a) b) false aliases visiting with
        | .ok l, .ok r => .ok (ExprOr l r)
        | .error err, _ => .error err
        | _, .error err => .error err
    | ExprIdentList _ => .ok e

/-- The fuel `exprToTerms` hands to `toNNF`: triple the expression size
(each XOR rewrite at most triples the depth), times one more than the alias
count, scaled by the total alias size. -/
def nnfFuel (e : Expr) (aliases : List (String × Expr)) : Nat :=
  3 * (exprSize e + 1 + (aliases.map (fun a => exprSize a.2)).sum) *
    (aliases.length + 2)

/-- `exprToTerms` from the source: NNF conversion then DNF synthesis. -/
def exprToTerms (e : Expr) (fields : List (String × Field))
    (aliases : List (String × Expr)) : Except String (List Term) :=
  match toNNF (nnfFuel e aliases) e false aliases [] with
  | .error err => .error err
  | .ok nnf => dnf nnf fields

/-- `exprToBitExprs` from the source: broadcast an expression bitwise over a
field of the given width. -/
def exprToBitExprs (e : Expr) (width : Nat)
    (fields : List (String × Field)) : List Expr :=
  match e with
  | ExprAnd a b =>
    ((exprToBitExprs a width fields).zip (exprToBitExprs b width fields)).map
      (fun p => ExprAnd p.1 p.2)
  | ExprOr a b =>
    ((exprToBitExprs a width fields).zip (exprToBitExprs b width fields)).map
      (fun p => ExprOr p.1 p.2)
  | ExprXor a b =>
    ((exprToBitExprs a width fields).zip (exprToBitExprs b width fields)).map
      (fun p => ExprXor p.1 p.2)
  | ExprNot x => (exprToBitExprs x width fields).map (fun i => ExprNot i)
  | ExprIdent n =>
    match lookupA fields n with
    | some f =>
      if f.Bits.length = width then f.Bits.map (fun b => ExprIdent b.Name)
      else List.replicate width e
    | none => List.replicate width e
  | ExprIdentList names =>
    if names.length = width then names.map (fun n => ExprIdent n)
    else List.replicate width e
  | _ => List.replicate width e

/-- `expandFieldExpr` from the source: one equation per bit of the output
field. -/
def expandFieldExpr (e : Expr) (outField : Field)
    (fields : List (String × Field)) (line : Nat) (isAppend : Bool) :
    List Equation :=
  let width := outField.Bits.length
  (outField.Bits.zip (exprToBitExprs e width fields)).map
    (fun p => ⟨line, p.1.Name, p.2, isAppend⟩)

/-- `desugarSetOps` from the source: expand equations whose LHS (after
stripping a `!` prefix) names a field into per-bit equations. -/
def desugarSetOps (c : Content) : List Equation :=
  (c.Equations.map (fun eq =>
    let lhs := trimSpace eq.LHS
    let lhsClean :=
      if listStartsWith lhs.data ['!'] then trimSpace ⟨lhs.data.tail⟩ else lhs
    match lookupA c.Fields lhsClean with
    | none => [eq]
    | some field =>
      expandFieldExpr eq.Expr field c.Fields eq.Line eq.Append)).flatten

/-- `mapTermsToPins` from the source: resolve literal names through the
symbol table; an active-low pin flips the literal's negation. -/
def mapTermsToPins (terms : List Term) (symbols : List (String × Symbol)) :
    Except String (List (List gal.Pin)) :=
  terms.foldl
    (fun (acc : Except String (List (List gal.Pin))) t =>
      match acc with
      | .error e => .error e
      | .ok out =>
        match t.Lits.foldl
          (fun (racc : Except String (List gal.Pin)) lit =>
            match racc with
            | .error e => .error e
            | .ok row =>
              match lookupA symbols lit.Name with
              | none => .error "unknown symbol"
              | some sym =>
                let neg := if sym.ActiveLow then !lit.Neg else lit.Neg
                .ok (row ++ [⟨sym.Pin, neg⟩])) (.ok []) with
        | .error e => .error e
        | .ok row => .ok (out ++ [row]))
    (.ok [])

/-- `compiledEq` from the source `Compile`. -/
structure compiledEq where
  eq : Equation
  terms : List Term
  activeLow : Bool
  outputName : String
  extension : String
deriving DecidableEq

/-- `olmcAccum` from the source `Compile`. -/
structure olmcAccum where
  terms : List Term
  activeLow : Bool
  line : Nat
  lhs : String
  extension : String
deriving DecidableEq

/-- The pin loop of `Compile`: range-check each pin definition, record the
pin name and the symbol.  The fold order over the `Pins` association list is
the model of Go's unspecified map range order; the `VCC`/`GND` symbols are
inserted afterwards, overriding any user pin of the same name. -/
def pinsSymbolsOf (c : Content) (chip : gal.Chip) :
    Except String (List String × List (String × Symbol)) :=
  let folded := c.Pins.foldl
    (fun (acc : Except String (List String × List (String × Symbol))) pd =>
      match acc with
      | .error e => .error e
      | .ok (pins, symbols) =>
        if pd.1 < 1 ∨ pd.1 > chip.NumPins then .error "pin out of range"
        else .ok (pins.set (pd.1 - 1) pd.2.Name,
                  upsertA symbols pd.2.Name ⟨pd.1, pd.2.ActiveLow⟩))
    (.ok ((gal.NewBlueprint chip).Pins, []))
  match folded with
  | .error e => .error e
  | .ok (pins, symbols) =>
    .ok (pins, upsertA (upsertA symbols "VCC" ⟨chip.NumPins, false⟩)
      "GND" ⟨chip.NumPins / 2, false⟩)

/-- The alias-collection loop of `Compile`: an equation whose LHS is neither
a declared pin nor a global signal, has no extension and is not APPEND
defines an alias. -/
def aliasesOf (eqs : List Equation) (symbols : List (String × Symbol)) :
    Except String (List (String × Expr)) :=
  eqs.foldl
    (fun (acc : Except String (List (String × Expr))) eq =>
      match acc with
      | .error e => .error e
      | .ok aliases =>
        match parseEquationLHS eq.LHS with
        | .error e => .error e
        | .ok info =>
          if info.ActiveLow ∧ (lookupA symbols info.Name).isNone ∧
              ¬isGlobalSignal info.Name then
            .error "active-low output is not a defined pin"
          else if (lookupA symbols info.Name).isNone ∧ ¬eq.Append ∧
              ¬isGlobalSignal info.Name ∧ info.Extension = "" then
            .ok (upsertA aliases info.Name eq.Expr)
          else .ok aliases)
    (.ok [])

/-- The polarity-optimization hoist of `Compile` (its lines 103–111): when
the top-level expression is a negation and the equation is neither APPEND
nor `.E` (output enable) nor `.R` (registered), compile the inner expression
and flip the polarity.  Returns (expression to compile, flipped?). -/
def polarityHoist (eq : Equation) (info : LHSInfo) : Expr × Bool :=
  match eq.Expr with
  | ExprNot x =>
    if ¬eq.Append ∧ info.Extension ≠ "E" ∧ info.Extension ≠ "R" then (x, true)
    else (eq.Expr, false)
  | _ => (eq.Expr, false)

/-- The state of `Compile`'s main equation loop: compiled equations, the
global AR/SP terms, and the OLMC indices marked as feedback-used. -/
structure eqPassState where
  compiled : List compiledEq
  AR : Option gal.Term
  SP : Option gal.Term
  feedback : List Nat
deriving DecidableEq

/-- The main equation loop of `Compile`: global AR/SP equations are lowered
and stored; alias equations are skipped; output equations get the polarity
hoist, are lowered to terms, and mark feedback use. -/
def compileEqPass (eqs : List Equation) (fields : List (String × Field))
    (aliases : List (String × Expr)) (symbols : List (String × Symbol))
    (chip : gal.Chip) : Except String eqPassState :=
  eqs.foldl
    (fun (acc : Except String eqPassState) eq =>
      match acc with
      | .error e => .error e
      | .ok st =>
        match parseEquationLHS eq.LHS with
        | .error e => .error e
        | .ok info =>
          if isGlobalSignal info.Name then
            match exprToTerms eq.Expr fields aliases with
            | .error e => .error e
            | .ok chosenTerms =>
              match mapTermsToPins chosenTerms symbols with
              | .error e => .error e
              | .ok galTerms =>
                let term : gal.Term := ⟨eq.Line, galTerms⟩
                if toUpperStr info.Name = "AR" then .ok { st with AR := some term }
                else if toUpperStr info.Name = "SP" then .ok { st with SP := some term }
                else .ok st
          else if (lookupA symbols info.Name).isNone then .ok st
          else
            let he := polarityHoist eq info
            match exprToTerms he.1 fields aliases with
            | .error e => .error e
            | .ok chosenTerms =>
              let finalActiveLow := if he.2 then !info.ActiveLow else info.ActiveLow
              let fb := chosenTerms.foldl
                (fun f t => t.Lits.foldl
                  (fun f lit =>
                    match lookupA symbols lit.Name with
                    | some sym =>
                      match chip.PinToOLMC sym.Pin with
                      | some olmc => setInsert f olmc
                      | none => f
                    | none => f) f) st.feedback
              .ok { st with
                compiled := st.compiled ++
                  [⟨eq, chosenTerms, finalActiveLow, info.Name, info.Extension⟩]
                feedback := fb })
    (.ok ⟨[], none, none, []⟩)

/-- The accumulation loop of `Compile`: group terms per OLMC (APPEND extends
an existing accumulator), output-enable equations in a separate map. -/
def accumPass (compiled : List compiledEq) (symbols : List (String × Symbol))
    (chip : gal.Chip) :
    Except String (List (Nat × olmcAccum) × List (Nat × olmcAccum)) :=
  compiled.foldl
    (fun (acc : Except String (List (Nat × olmcAccum) × List (Nat × olmcAccum)))
        item =>
      match acc with
      | .error e => .error e
      | .ok (accum, oeAccum) =>
        match lookupA symbols item.outputName with
        | none => .error "unknown output"
        | some sym =>
          match chip.PinToOLMC sym.Pin with
          | none => .error "not a valid output pin"
          | some olmc =>
            if item.extension = "E" then
              match lookupA oeAccum olmc with
              | some _ => .error "OE already defined"
              | none => .ok (accum, oeAccum ++
                  [(olmc, ⟨item.terms, false, item.eq.Line, item.outputName, ""⟩)])
            else
              match lookupA accum olmc with
              | some a =>
                if ¬item.eq.Append then .error "output already defined"
                else .ok (upsertA accum olmc
                    { a with terms := a.terms ++ item.terms }, oeAccum)
              | none =>
                .ok (accum ++ [(olmc,
                  ⟨item.terms, (item.activeLow || sym.ActiveLow),
                    item.eq.Line, item.outputName, item.extension⟩)], oeAccum))
    (.ok ([], []))

/-- The output-placement loop of `Compile`: minimize each accumulator, map
literals to pins and store the result in its OLMC.  The fold order over
the accumulator map is its insertion order (the Go map range order is
unspecified; all writes go to distinct OLMC slots). -/
def placeAccum (accum : List (Nat × olmcAccum))
    (symbols : List (String × Symbol)) (olmcs : List gal.OLMC) :
    Except String (List gal.OLMC) :=
  accum.foldl
    (fun (acc : Except String (List gal.OLMC)) entry =>
      match acc with
      | .error e => .error e
      | .ok olmcs =>
        let a := entry.2
        match mapTermsToPins (minimizeTerms a.terms) symbols with
        | .error e => .error e
        | .ok galTerms =>
          let old := olmcs.getD entry.1 default
          let upd := { old with
            Output := some (⟨a.line, galTerms⟩ : gal.Term)
            Active := if a.activeLow then gal.Active.ActiveLow
                      else gal.Active.ActiveHigh
            Registered := if a.extension = "R" then true else old.Registered }
          .ok (olmcs.set entry.1 upd))
    (.ok olmcs)

/-- The OE-placement loop of `Compile`. -/
def placeOE (oeAccum : List (Nat × olmcAccum))
    (symbols : List (String × Symbol)) (olmcs : List gal.OLMC) :
    Except String (List gal.OLMC) :=
  oeAccum.foldl
    (fun (acc : Except String (List gal.OLMC)) entry =>
      match acc with
      | .error e => .error e
      | .ok olmcs =>
        match mapTermsToPins (minimizeTerms entry.2.terms) symbols with
        | .error e => .error e
        | .ok galTerms =>
          let old := olmcs.getD entry.1 default
          .ok (olmcs.set entry.1
            { old with OETerm := some (⟨entry.2.line, galTerms⟩ : gal.Term) }))
    (.ok olmcs)

/-- The `needs_flip` pass of `Compile`: negate every reference to a
registered active-high output pin of the 22V10, in every placed term. -/
def flipTerm (flipPins : List Nat) (t : gal.Term) : gal.Term :=
  ⟨t.Line, t.Pins.map (fun row => row.map
    (fun p => if p.Pin ∈ flipPins then ⟨p.Pin, !p.Neg⟩ else p))⟩

/-- The blueprint after the `needs_flip` pass of `Compile`. -/
def flipBlueprint (bp : gal.Blueprint) : gal.Blueprint :=
  if bp.Chip = gal.Chip.GAL22V10 then
    let flipPins := bp.OLMC.enum.filterMap (fun io =>
      if io.2.Registered ∧ io.2.Active = gal.Active.ActiveHigh then
        some (bp.Chip.MinOLMCPin + io.1)
      else none)
    if flipPins.isEmpty then bp
    else
      { bp with
        OLMC := bp.OLMC.map (fun o =>
          { o with Output := o.Output.map (flipTerm flipPins)
                   OETerm := o.OETerm.map (flipTerm flipPins) })
        AR := bp.AR.map (flipTerm flipPins)
        SP := bp.SP.map (flipTerm flipPins) }
  else bp

/-- `Compile` from the source: the full middle-end pipeline down to the GAL
fuse map. -/
def Compile (c : Content) : Except String gal.GAL :=
  match gal.ParseChip c.Device with
  | .error e => .error e
  | .ok chip =>
    let modeHint := gal.ParseModeHint c.Device
    let partno := trimSpace ((lookupA c.Meta "Partno").getD "")
    let sig := if partno ≠ "" then jed.strBytes partno else []
    match pinsSymbolsOf c chip with
    | .error e => .error e
    | .ok ps =>
      let eqs := desugarSetOps c
      match aliasesOf eqs ps.2 with
      | .error e => .error e
      | .ok aliases =>
        match compileEqPass eqs c.Fields aliases ps.2 chip with
        | .error e => .error e
        | .ok st =>
          match accumPass st.compiled ps.2 chip with
          | .error e => .error e
          | .ok accs =>
            let olmcs0 := st.feedback.foldl
              (fun os i => os.set i { (os.getD i default) with Feedback := true })
              (gal.NewBlueprint chip).OLMC
            match placeAccum accs.1 ps.2 olmcs0 with
            | .error e => .error e
            | .ok olmcs1 =>
              match placeOE accs.2 ps.2 olmcs1 with
              | .error e => .error e
              | .ok olmcs2 =>
                gal.BuildGAL (flipBlueprint
                  { Chip := chip, Pins := ps.1, Sig := sig, OLMC := olmcs2,
                    AR := st.AR, SP := st.SP, ModeHint := modeHint })

/-! Specification-side definitions used in the theorem statements below. -/

/-- Strict version of `strLE`. -/
def strLT (a b : String) : Bool := strLE a b && decide (a ≠ b)

/-- A product term is polarity-consistent: no variable occurs both negated
and un-negated in it (the DNF synthesizer's `mergeTerms` guarantees this for
every term it builds). -/
def termConsistent (t : Term) : Prop :=
  ∀ l1 ∈ t.Lits, ∀ l2 ∈ t.Lits, l1.Name = l2.Name → l1.Neg = l2.Neg

/-- A product term in the normal form the DNF synthesizer produces:
literals strictly sorted by name (hence with distinct names). -/
def termNormalized (t : Term) : Prop :=
  t.Lits.Pairwise (fun a b => strLT a.Name b.Name = true)

/-- The don't-care count of a term's implicant below the variable count
(the quantity the source's 20-don't-care safety cap tests). -/
def dcCount (t : Term) (vars : List String) : Nat :=
  (dcBitsOf (termToImplicant t vars) vars.length).length

/-- The raw (un-normalized) upper-cased LHS extension, read off the equation
LHS the same way `parseEquationLHS` does: trim, strip a `!` prefix, and
upper-case what follows the first dot (empty if there is no dot). -/
def rawExtensionOf (lhs : String) : String :=
  let l₀ := trimSpace lhs
  let l₁ := if listStartsWith l₀.data ['!'] then trimSpace ⟨l₀.data.tail⟩ else l₀
  match indexOfChar l₁ '.' with
  | some idx => toUpperStr ⟨l₁.data.drop (idx + 1)⟩
  | none => ""

/-- An output-enable equation: LHS extension `.OE` or `.E` (§6). -/
def isOEEquation (lhs : String) : Prop :=
  rawExtensionOf lhs = "OE" ∨ rawExtensionOf lhs = "E"

/-- A registered equation: LHS extension `.R` or `.D` (§6). -/
def isRegEquation (lhs : String) : Prop :=
  rawExtensionOf lhs = "R" ∨ rawExtensionOf lhs = "D"

/-- The value of a field under an assignment of its bit names, MSB first
(`Bits[0]` is the most significant bit). -/
def fieldValOf (σ : String → Bool) (field : Field) : Nat :=
  field.Bits.foldl (fun v b => 2 * v + (if σ b.Name then 1 else 0)) 0

end cupl

namespace gal

/-- The supply pins of a chip (`VCC` at `NumPins`, `GND` at `NumPins / 2`):
the pins whose column lookup reports a power-pin error. -/
def powerPin (c : Chip) (pin : Nat) : Prop :=
  (c = Chip.GAL16V8 ∧ (pin = 10 ∨ pin = 20)) ∨
  (c = Chip.GAL22V10 ∧ (pin = 12 ∨ pin = 24))

end gal

namespace cupl

/-- The prime-implicant cover `minimizeTerms` selects (its `selected`
variable), extracted for the keep-or-reject statement. -/
def qmSelected (terms : List Term) : List implicant :=
  let vars := collectVars terms
  let numVars := vars.length
  let inputImps := terms.map (fun t => termToImplicant t vars)
  let mintermSet := mintermSetOf inputImps numVars
  let minterms := sortBy (fun a b => decide (a ≤ b)) mintermSet
  let primes := findPrimeImplicants minterms numVars
  minimumCover primes minterms numVars

end cupl

/-! ### Claim C3: the pin-to-column mapping is keyed on (device, mode) -/

/-- C3: for the GAL16V8 the column lookup is keyed on the operating mode:
in Simple mode (SYN=1, AC0=0) pins 15 and 16 have no input column and
`pinToColumn` fails for them, while in Complex mode (SYN=1, AC0=1) the same
two pins map to valid input columns (18 and 14). -/
theorem pinToColumn_mode_keyed_15_16 :
    gal.pinToCol16Simple 15 = .error "pin is not an input in simple mode" ∧
    gal.pinToCol16Simple 16 = .error "pin is not an input in simple mode" ∧
    gal.pinToCol16Complex 15 = .ok 18 ∧
    gal.pinToCol16Complex 16 = .ok 14 ∧
    gal.pinToColumn (gal.SetSimpleMode (gal.NewGAL gal.Chip.GAL16V8)) 15
      = .error "pin is not an input in simple mode" ∧
    gal.pinToColumn (gal.SetSimpleMode (gal.NewGAL gal.Chip.GAL16V8)) 16
      = .error "pin is not an input in simple mode" ∧
    gal.pinToColumn (gal.SetComplexMode (gal.NewGAL gal.Chip.GAL16V8)) 15 = .ok 18 ∧
    gal.pinToColumn (gal.SetComplexMode (gal.NewGAL gal.Chip.GAL16V8)) 16 = .ok 14 := by
  exact ⟨rfl, rfl, rfl, rfl, rfl, rfl, rfl, rfl⟩

/-! ### Fuse-array helper lemmas -/

/-- Setting an index leaves every other position unchanged. -/
theorem getD_set_ne {l : List Bool} {i j : Nat} (h : i ≠ j) (a d : Bool) :
    (l.set i a).getD j d = l.getD j d := by
  simp [List.getD_eq_getElem?_getD, List.getElem?_set_ne h]

/-- The length of the fuse list is preserved by a block clear. -/
theorem length_foldl_set (r : List Nat) (l : List Bool) :
    (r.foldl (fun f i => f.set i false) l).length = l.length := by
  induction r generalizing l with
  | nil => rfl
  | cons x xs ih => simp [List.foldl_cons, ih, List.length_set]

/-- Positions outside `[s, s + n)` are unchanged by clearing that range. -/
theorem getD_foldl_clear (n : Nat) : ∀ (s j : Nat) (l : List Bool),
    (j < s ∨ s + n ≤ j) →
    ((List.range' s n).foldl (fun f i => f.set i false) l).getD j false
      = l.getD j false := by
  induction n with
  | zero => intro s j l _; rfl
  | succ n ih =>
    intro s j l hj
    rw [List.range'_succ, List.foldl_cons]
    rw [ih (s + 1) j (l.set s false) (by omega)]
    exact getD_set_ne (by omega) false false

/-- Positions inside `[s, s + n)` and inside the list are `false` after
clearing that range. -/
theorem getD_foldl_clear_mem (n : Nat) : ∀ (s j : Nat) (l : List Bool),
    s ≤ j → j < s + n → j < l.length →
    ((List.range' s n).foldl (fun f i => f.set i false) l).getD j false
      = false := by
  induction n with
  | zero => intro s j l h1 h2 _; omega
  | succ n ih =>
    intro s j l h1 h2 h3
    rw [List.range'_succ, List.foldl_cons]
    by_cases hj : j = s
    · subst hj
      rw [getD_foldl_clear n (j + 1) j _ (by omega)]
      simp [List.getD_eq_getElem?_getD, List.getElem?_set_self, h3]
    · exact ih (s + 1) j (l.set s false) (by omega) (by omega)
        (by simpa [List.length_set] using h3)

/-- Elementwise effect of the index-loop transcription of a range clear. -/
theorem getElem?_foldl_clear (n : Nat) : ∀ (s j : Nat) (l : List Bool),
    ((List.range' s n).foldl (fun f i => f.set i false) l)[j]?
      = if s ≤ j ∧ j < s + n then (fun _ => false) <$> l[j]? else l[j]? := by
  induction n with
  | zero =>
    intro s j l
    rw [if_neg (by omega)]
    rfl
  | succ n ih =>
    intro s j l
    rw [List.range'_succ, List.foldl_cons, ih (s + 1) j (l.set s false)]
    by_cases hj : j = s
    · subst hj
      rw [if_neg (by omega), if_pos (by omega)]
      by_cases hlen : j < l.length
      · rw [List.getElem?_set_self hlen,
          show l[j]? = some (l.get ⟨j, hlen⟩) from List.getElem?_eq_getElem hlen]
        rfl
      · rw [List.getElem?_eq_none (by simpa using hlen),
          List.getElem?_eq_none (by simpa [List.length_set] using hlen)]
        rfl
    · rw [List.getElem?_set_ne (by omega)]
      by_cases hin : s + 1 ≤ j ∧ j < s + 1 + n
      · rw [if_pos hin, if_pos (by omega)]
      · rw [if_neg hin, if_neg (by omega)]

namespace gal

/-- The model's bounds test in `setAnd` is the source's `idx >= len`. -/
theorem drop_isEmpty_iff_length (l : List Bool) (i : Nat) :
    (l.drop i).isEmpty = true ↔ l.length ≤ i := by
  rw [List.isEmpty_iff, List.drop_eq_nil_iff]

/-- A range clear preserves the fuse list length. -/
theorem length_clearRange (l : List Bool) (s n : Nat) :
    (clearRange l s n).length = l.length := by
  simp [clearRange]
  omega

/-- Elementwise effect of a range clear. -/
theorem getElem?_clearRange (l : List Bool) (s n j : Nat) :
    (clearRange l s n)[j]?
      = if s ≤ j ∧ j < s + n then (fun _ => false) <$> l[j]? else l[j]? := by
  unfold clearRange
  rw [List.getElem?_append, List.getElem?_append]
  rw [List.length_append, List.length_take, List.length_map, List.length_take,
    List.length_drop]
  by_cases h0 : j < s ⊓ l.length + n ⊓ (l.length - s)
  · rw [if_pos h0]
    by_cases h1 : j < s ⊓ l.length
    · rw [if_pos h1, List.getElem?_take, if_pos (by omega), if_neg (by omega)]
    · rw [if_neg h1, List.getElem?_map, List.getElem?_take, if_pos (by omega),
        List.getElem?_drop, if_pos (by omega)]
      have he : s + (j - s ⊓ l.length) = j := by omega
      rw [he]
      rfl
  · rw [if_neg h0, List.getElem?_drop]
    by_cases h3 : j < l.length
    · rw [if_neg (by omega)]
      have he : s + n + (j - (s ⊓ l.length + n ⊓ (l.length - s))) = j := by
        omega
      rw [he]
    · have hA : l[s + n + (j - (s ⊓ l.length + n ⊓ (l.length - s)))]? = none :=
        List.getElem?_eq_none (by omega)
      have hB : l[j]? = none := List.getElem?_eq_none (by omega)
      rw [hA, hB]
      split <;> rfl

/-- Outside the cleared range nothing changes. -/
theorem getD_clearRange_out (l : List Bool) (s n j : Nat)
    (h : j < s ∨ s + n ≤ j) :
    (clearRange l s n).getD j false = l.getD j false := by
  rw [List.getD_eq_getElem?_getD, List.getD_eq_getElem?_getD,
    getElem?_clearRange, if_neg (by omega)]

/-- Inside the cleared range (and inside the list) everything is 0. -/
theorem getD_clearRange_mem (l : List Bool) (s n j : Nat)
    (h1 : s ≤ j) (h2 : j < s + n) (h3 : j < l.length) :
    (clearRange l s n).getD j false = false := by
  rw [List.getD_eq_getElem?_getD, getElem?_clearRange, if_pos (by omega),
    show l[j]? = some (l.get ⟨j, h3⟩) from List.getElem?_eq_getElem h3]
  rfl

/-- The splice form of the range clear equals the source's index loop. -/
theorem clearRange_eq_foldl (l : List Bool) (s n : Nat) :
    clearRange l s n
      = (List.range' s n).foldl (fun f i => f.set i false) l := by
  apply List.ext_getElem?
  intro j
  rw [getElem?_clearRange, getElem?_foldl_clear]

end gal

namespace gal

/-- Every successful column lookup returns a column whose pair fits inside
the row: `col + 1 < NumCols`. -/
theorem pinToColumn_col_lt {g : GAL} {pin col : Nat}
    (h : pinToColumn g pin = .ok col) : col + 1 < g.Chip.NumCols := by
  unfold pinToColumn at h
  split at h
  · exact absurd h (by simp)
  · rename_i hrange
    split at h
    · rename_i hchip
      rw [hchip]
      have hle : pin ≤ 20 := by
        simp [Chip.NumPins, hchip] at hrange; omega
      have hge : 1 ≤ pin := by
        simp [Chip.NumPins, hchip] at hrange; omega
      split at h
      · unfold pinToCol16Simple at h
        interval_cases pin <;> simp_all [Chip.NumCols] <;> omega
      · unfold pinToCol16Complex at h
        interval_cases pin <;> simp_all [Chip.NumCols] <;> omega
    · split at h
      · rename_i hchip
        rw [hchip]
        have hle : pin ≤ 24 := by
          simp [Chip.NumPins, hchip] at hrange; omega
        have hge : 1 ≤ pin := by
          simp [Chip.NumPins, hchip] at hrange; omega
        unfold pinToCol22v10 at h
        interval_cases pin <;> simp_all [Chip.NumCols] <;> omega
      · exact absurd h (by simp)

/-- `setAnd` only changes fuses in the written row, and no other field. -/
theorem setAnd_frame {g g' : GAL} {row pin : Nat} {neg : Bool}
    (h : setAnd g row pin neg = .ok g') :
    g'.Chip = g.Chip ∧ g'.Xor = g.Xor ∧ g'.Sig = g.Sig ∧ g'.AC1 = g.AC1 ∧
    g'.PT = g.PT ∧ g'.Syn = g.Syn ∧ g'.AC0 = g.AC0 ∧
    g'.Fuses.length = g.Fuses.length ∧
    ∀ j, (j < row * g.Chip.NumCols ∨ (row + 1) * g.Chip.NumCols ≤ j) →
      g'.Fuses.getD j false = g.Fuses.getD j false := by
  unfold setAnd at h
  rcases hc : pinToColumn g pin with e | col
  · rw [hc] at h; cases h
  · rw [hc] at h
    simp only at h
    have hlt := pinToColumn_col_lt hc
    by_cases hlen : (g.Fuses.drop
        (row * g.Chip.NumCols + col + (if neg then 1 else 0))).isEmpty = true
    · rw [if_pos hlen] at h; cases h
    · rw [if_neg hlen] at h
      cases h
      refine ⟨rfl, rfl, rfl, rfl, rfl, rfl, rfl, List.length_set .., ?_⟩
      intro j hj
      apply getD_set_ne
      have hoff : (if neg then (1 : Nat) else 0) ≤ 1 := by split <;> omega
      have hmul : (row + 1) * g.Chip.NumCols
          = row * g.Chip.NumCols + g.Chip.NumCols := by ring
      omega

/-- The inner pin loop of `AddTerm` only changes fuses in its row, whether
it succeeds or stops at an error. -/
theorem addRowPins_frame (ps : List Pin) : ∀ (g : GAL) (row : Nat),
    (addRowPins g row ps).1.Chip = g.Chip ∧
    (addRowPins g row ps).1.Xor = g.Xor ∧
    (addRowPins g row ps).1.Sig = g.Sig ∧
    (addRowPins g row ps).1.AC1 = g.AC1 ∧
    (addRowPins g row ps).1.PT = g.PT ∧
    (addRowPins g row ps).1.Syn = g.Syn ∧
    (addRowPins g row ps).1.AC0 = g.AC0 ∧
    (addRowPins g row ps).1.Fuses.length = g.Fuses.length ∧
    ∀ j, (j < row * g.Chip.NumCols ∨ (row + 1) * g.Chip.NumCols ≤ j) →
      (addRowPins g row ps).1.Fuses.getD j false = g.Fuses.getD j false := by
  induction ps with
  | nil => intro g row; exact ⟨rfl, rfl, rfl, rfl, rfl, rfl, rfl, rfl, fun _ _ => rfl⟩
  | cons p ps ih =>
    intro g row
    rw [show addRowPins g row (p :: ps) = (match setAnd g row p.Pin p.Neg with
      | .ok g' => addRowPins g' row ps
      | .error e => (g, some e)) from rfl]
    rcases hsa : setAnd g row p.Pin p.Neg with e | g'
    · exact ⟨rfl, rfl, rfl, rfl, rfl, rfl, rfl, rfl, fun _ _ => rfl⟩
    · obtain ⟨h1, h2, h3, h4, h5, h6, h7, h8, h9⟩ := setAnd_frame hsa
      obtain ⟨i1, i2, i3, i4, i5, i6, i7, i8, i9⟩ := ih g' row
      rw [h1] at i9
      refine ⟨i1.trans h1, i2.trans h2, i3.trans h3, i4.trans h4,
        i5.trans h5, i6.trans h6, i7.trans h7, i8.trans h8, ?_⟩
      intro j hj
      exact (i9 j hj).trans (h9 j hj)

end gal

namespace gal

/-- The row loop of `AddTerm` only changes fuses in the rows from
`StartRow + RowOffset` up to (excluding) `StartRow + MaxRows`. -/
theorem addTermRows_frame (rows : List (List Pin)) :
    ∀ (g : GAL) (single : Bool) (b : Bounds), b.RowOffset ≤ b.MaxRows →
    (addTermRows g single rows b).1.Chip = g.Chip ∧
    (addTermRows g single rows b).1.Xor = g.Xor ∧
    (addTermRows g single rows b).1.Sig = g.Sig ∧
    (addTermRows g single rows b).1.AC1 = g.AC1 ∧
    (addTermRows g single rows b).1.PT = g.PT ∧
    (addTermRows g single rows b).1.Syn = g.Syn ∧
    (addTermRows g single rows b).1.AC0 = g.AC0 ∧
    (addTermRows g single rows b).1.Fuses.length = g.Fuses.length ∧
    ∀ j, (j < (b.StartRow + b.RowOffset) * g.Chip.NumCols ∨
          (b.StartRow + b.MaxRows) * g.Chip.NumCols ≤ j) →
      (addTermRows g single rows b).1.Fuses.getD j false = g.Fuses.getD j false := by
  induction rows with
  | nil =>
    intro g single b hoff
    refine ⟨rfl, rfl, rfl, rfl, rfl, rfl, rfl, length_clearRange .., ?_⟩
    intro j hj
    apply getD_clearRange_out
    have h1 : (b.StartRow + b.RowOffset) * g.Chip.NumCols
        ≤ (b.StartRow + b.MaxRows) * g.Chip.NumCols :=
      Nat.mul_le_mul_right _ (by omega)
    omega
  | cons row rest ih =>
    intro g single b hoff
    rw [show addTermRows g single (row :: rest) b
        = (if b.RowOffset = b.MaxRows then
            (g, some (if single then "more than one product term"
                      else "too many product terms"))
          else
            match addRowPins g (b.StartRow + b.RowOffset) row with
            | (g', none) => addTermRows g' single rest
                { b with RowOffset := b.RowOffset + 1 }
            | (g', some e) => (g', some e)) from rfl]
    by_cases hmax : b.RowOffset = b.MaxRows
    · rw [if_pos hmax]
      exact ⟨rfl, rfl, rfl, rfl, rfl, rfl, rfl, rfl, fun _ _ => rfl⟩
    · rw [if_neg hmax]
      obtain ⟨h1, h2, h3, h4, h5, h6, h7, h8, h9⟩ :=
        addRowPins_frame row g (b.StartRow + b.RowOffset)
      have hrow : ∀ j, (j < (b.StartRow + b.RowOffset) * g.Chip.NumCols ∨
          (b.StartRow + b.MaxRows) * g.Chip.NumCols ≤ j) →
          (j < (b.StartRow + b.RowOffset) * g.Chip.NumCols ∨
           (b.StartRow + b.RowOffset + 1) * g.Chip.NumCols ≤ j) := by
        intro j hj
        have : (b.StartRow + b.RowOffset + 1) * g.Chip.NumCols
            ≤ (b.StartRow + b.MaxRows) * g.Chip.NumCols :=
          Nat.mul_le_mul_right _ (by omega)
        omega
      rcases hrp : addRowPins g (b.StartRow + b.RowOffset) row with ⟨g', err⟩
      rcases err with _ | e
      · obtain ⟨i1, i2, i3, i4, i5, i6, i7, i8, i9⟩ :=
          ih g' single { b with RowOffset := b.RowOffset + 1 } (by simp; omega)
        rw [hrp] at h1 h2 h3 h4 h5 h6 h7 h8 h9
        rw [h1] at i9
        refine ⟨i1.trans h1, i2.trans h2, i3.trans h3, i4.trans h4,
          i5.trans h5, i6.trans h6, i7.trans h7, i8.trans h8, ?_⟩
        intro j hj
        refine ((i9 j ?_).trans (h9 j (hrow j hj)))
        simp only
        have : (b.StartRow + (b.RowOffset + 1)) * g.Chip.NumCols
            = (b.StartRow + b.RowOffset + 1) * g.Chip.NumCols := by ring_nf
        rcases hj with hj' | hj'
        · left
          have hle : (b.StartRow + b.RowOffset) * g.Chip.NumCols
              ≤ (b.StartRow + (b.RowOffset + 1)) * g.Chip.NumCols :=
            Nat.mul_le_mul_right _ (by omega)
          omega
        · right; omega
      · rw [hrp] at h1 h2 h3 h4 h5 h6 h7 h8 h9
        exact ⟨h1, h2, h3, h4, h5, h6, h7, h8,
          fun j hj => h9 j (hrow j hj)⟩

end gal

/-! ### Claim C10: `AddTerm` only writes inside its bounds' row block -/

/-- C10: `AddTerm` only ever modifies fuses whose index lies inside the row
block given by its bounds — rows `StartRow + RowOffset` through
`StartRow + MaxRows - 1` of the logic grid — and leaves every fuse outside
that block and all of the Xor, Sig, AC1, PT, Syn and AC0 groups unchanged,
whether it succeeds or returns an error. -/
theorem AddTerm_frame (g : gal.GAL) (t : gal.Term) (b : gal.Bounds)
    (hoff : b.RowOffset ≤ b.MaxRows) :
    (gal.AddTerm g t b).1.Chip = g.Chip ∧
    (gal.AddTerm g t b).1.Xor = g.Xor ∧
    (gal.AddTerm g t b).1.Sig = g.Sig ∧
    (gal.AddTerm g t b).1.AC1 = g.AC1 ∧
    (gal.AddTerm g t b).1.PT = g.PT ∧
    (gal.AddTerm g t b).1.Syn = g.Syn ∧
    (gal.AddTerm g t b).1.AC0 = g.AC0 ∧
    (gal.AddTerm g t b).1.Fuses.length = g.Fuses.length ∧
    ∀ j, (j < (b.StartRow + b.RowOffset) * g.Chip.NumCols ∨
          (b.StartRow + b.MaxRows) * g.Chip.NumCols ≤ j) →
      (gal.AddTerm g t b).1.Fuses.getD j false = g.Fuses.getD j false :=
  gal.addTermRows_frame t.Pins g _ b hoff

/-- Witness for C10 at a concrete input: a two-row term on the GAL16V8 with
OLMC-0 bounds leaves the fuse of row 0 (index 0) and the first fuse above
the block (row 64 does not exist, so take the last index inside row 55,
1791) unchanged, and the discrete groups untouched. -/
theorem AddTerm_frame_witness :
    (0 : Nat) ≤ 8 ∧
    ((gal.AddTerm (gal.NewGAL gal.Chip.GAL16V8)
        ⟨1, [[⟨2, false⟩], [⟨3, true⟩]]⟩ ⟨56, 8, 0⟩).1.Fuses.getD 1791 false
      = (gal.NewGAL gal.Chip.GAL16V8).Fuses.getD 1791 false ∧
     (gal.AddTerm (gal.NewGAL gal.Chip.GAL16V8)
        ⟨1, [[⟨2, false⟩], [⟨3, true⟩]]⟩ ⟨56, 8, 0⟩).1.Xor
      = (gal.NewGAL gal.Chip.GAL16V8).Xor) := by
  refine ⟨by decide, ?_, ?_⟩
  · exact (AddTerm_frame (gal.NewGAL gal.Chip.GAL16V8)
      ⟨1, [[⟨2, false⟩], [⟨3, true⟩]]⟩ ⟨56, 8, 0⟩ (by decide)).2.2.2.2.2.2.2.2
      1791 (by decide)
  · exact (AddTerm_frame (gal.NewGAL gal.Chip.GAL16V8)
      ⟨1, [[⟨2, false⟩], [⟨3, true⟩]]⟩ ⟨56, 8, 0⟩ (by decide)).2.1

/-! ### Claim C7: placement of TRUE terms and of empty term lists -/

set_option maxRecDepth 10000 in
set_option maxHeartbeats 1600000 in
/-- Counterexample to C7 as stated: a TRUE product term does NOT occupy a
row of all-zero fuses.  On a fresh GAL16V8, placing `TrueTerm` into OLMC 7's
block (rows 0–7) succeeds and leaves the first fuse of its row 0 (fuse
index 0) at 1 — the whole row stays all-ones (all links intact), it is not
cleared to zero. -/
theorem TrueTerm_row_not_all_zero :
    (gal.AddTerm (gal.NewGAL gal.Chip.GAL16V8) (gal.TrueTerm 1)
      (gal.Chip.BoundsForOLMC gal.Chip.GAL16V8 7)).2 = none ∧
    (gal.AddTerm (gal.NewGAL gal.Chip.GAL16V8) (gal.TrueTerm 1)
      (gal.Chip.BoundsForOLMC gal.Chip.GAL16V8 7)).1.Fuses.getD 0 false
      = true := by
  constructor
  · decide
  · decide

theorem TrueFalse_placement (chip : gal.Chip) (b : gal.Bounds) (line : Nat)
    (h1 : b.RowOffset < b.MaxRows)
    (h2 : (b.StartRow + b.MaxRows) * chip.NumCols
      ≤ chip.NumRows * chip.NumCols) :
    (gal.AddTerm (gal.NewGAL chip) (gal.TrueTerm line) b).2 = none ∧
    (gal.AddTerm (gal.NewGAL chip) (gal.FalseTerm line) b).2 = none ∧
    (∀ i < chip.NumCols,
      (gal.AddTerm (gal.NewGAL chip) (gal.TrueTerm line) b).1.Fuses.getD
        ((b.StartRow + b.RowOffset) * chip.NumCols + i) false = true) ∧
    (∀ r, b.RowOffset < r → r < b.MaxRows → ∀ i < chip.NumCols,
      (gal.AddTerm (gal.NewGAL chip) (gal.TrueTerm line) b).1.Fuses.getD
        ((b.StartRow + r) * chip.NumCols + i) false = false) ∧
    (∀ r, b.RowOffset ≤ r → r < b.MaxRows → ∀ i < chip.NumCols,
      (gal.AddTerm (gal.NewGAL chip) (gal.FalseTerm line) b).1.Fuses.getD
        ((b.StartRow + r) * chip.NumCols + i) false = false) := by
  have hrepl : ∀ j, j < chip.NumRows * chip.NumCols →
      (gal.NewGAL chip).Fuses.getD j false = true := by
    intro j hj
    simp [gal.NewGAL, List.getD_eq_getElem?_getD, List.getElem?_replicate, hj]
  have hT : gal.AddTerm (gal.NewGAL chip) (gal.TrueTerm line) b
      = (gal.clearRows (gal.NewGAL chip)
          { b with RowOffset := b.RowOffset + 1 }, none) := by
    simp only [gal.AddTerm, gal.TrueTerm, gal.addTermRows, gal.addRowPins]
    rw [if_neg (by omega)]
  have hF : gal.AddTerm (gal.NewGAL chip) (gal.FalseTerm line) b
      = (gal.clearRows (gal.NewGAL chip) b, none) := rfl
  have hlen : (gal.NewGAL chip).Fuses.length
      = chip.NumRows * chip.NumCols := by
    simp [gal.NewGAL]
  have hchip : (gal.NewGAL chip).Chip = chip := rfl
  rw [hT, hF]
  unfold gal.clearRows
  simp only [hchip, hlen]
  refine ⟨trivial, trivial, ?_, ?_, ?_⟩
  · intro i hi
    rw [gal.getD_clearRange_out _ _ _ _ (by
      left
      have hx : (b.StartRow + (b.RowOffset + 1)) * chip.NumCols
          = (b.StartRow + b.RowOffset) * chip.NumCols + chip.NumCols := by ring
      omega)]
    apply hrepl
    have hy : (b.StartRow + (b.RowOffset + 1)) * chip.NumCols
        ≤ (b.StartRow + b.MaxRows) * chip.NumCols :=
      Nat.mul_le_mul_right _ (by omega)
    have hx : (b.StartRow + (b.RowOffset + 1)) * chip.NumCols
        = (b.StartRow + b.RowOffset) * chip.NumCols + chip.NumCols := by ring
    omega
  · intro r hr1 hr2 i hi
    apply gal.getD_clearRange_mem
    · calc (b.StartRow + (b.RowOffset + 1)) * chip.NumCols
          ≤ (b.StartRow + r) * chip.NumCols :=
            Nat.mul_le_mul_right _ (by omega)
        _ ≤ (b.StartRow + r) * chip.NumCols + i := Nat.le_add_right _ _
    · have hy : (b.StartRow + (r + 1)) * chip.NumCols
          ≤ (b.StartRow + b.MaxRows) * chip.NumCols :=
        Nat.mul_le_mul_right _ (by omega)
      have hx : (b.StartRow + (r + 1)) * chip.NumCols
          = (b.StartRow + r) * chip.NumCols + chip.NumCols := by ring
      have hz : (b.StartRow + (b.RowOffset + 1)) * chip.NumCols
          ≤ (b.StartRow + b.MaxRows) * chip.NumCols :=
        Nat.mul_le_mul_right _ (by omega)
      omega
    · rw [hlen]
      have hy : (b.StartRow + (r + 1)) * chip.NumCols
          ≤ (b.StartRow + b.MaxRows) * chip.NumCols :=
        Nat.mul_le_mul_right _ (by omega)
      have hx : (b.StartRow + (r + 1)) * chip.NumCols
          = (b.StartRow + r) * chip.NumCols + chip.NumCols := by ring
      omega
  · intro r hr1 hr2 i hi
    apply gal.getD_clearRange_mem
    · calc (b.StartRow + b.RowOffset) * chip.NumCols
          ≤ (b.StartRow + r) * chip.NumCols :=
            Nat.mul_le_mul_right _ (by omega)
        _ ≤ (b.StartRow + r) * chip.NumCols + i := Nat.le_add_right _ _
    · have hy : (b.StartRow + (r + 1)) * chip.NumCols
          ≤ (b.StartRow + b.MaxRows) * chip.NumCols :=
        Nat.mul_le_mul_right _ (by omega)
      have hx : (b.StartRow + (r + 1)) * chip.NumCols
          = (b.StartRow + r) * chip.NumCols + chip.NumCols := by ring
      have hz : (b.StartRow + b.RowOffset) * chip.NumCols
          ≤ (b.StartRow + b.MaxRows) * chip.NumCols :=
        Nat.mul_le_mul_right _ (by omega)
      omega
    · rw [hlen]
      have hy : (b.StartRow + (r + 1)) * chip.NumCols
          ≤ (b.StartRow + b.MaxRows) * chip.NumCols :=
        Nat.mul_le_mul_right _ (by omega)
      have hx : (b.StartRow + (r + 1)) * chip.NumCols
          = (b.StartRow + r) * chip.NumCols + chip.NumCols := by ring
      omega

/-- Witness for C7's amended statement: OLMC 7 of the GAL16V8 (rows 0–7,
32 columns) satisfies the hypotheses, and placing a TRUE term there
succeeds. -/
theorem TrueFalse_placement_witness :
    (⟨0, 8, 0⟩ : gal.Bounds).RowOffset < (⟨0, 8, 0⟩ : gal.Bounds).MaxRows ∧
    (0 + 8) * gal.Chip.GAL16V8.NumCols
      ≤ gal.Chip.GAL16V8.NumRows * gal.Chip.GAL16V8.NumCols ∧
    (gal.AddTerm (gal.NewGAL gal.Chip.GAL16V8) (gal.TrueTerm 0)
      ⟨0, 8, 0⟩).2 = none :=
  ⟨by decide, by decide,
    (TrueFalse_placement gal.Chip.GAL16V8 ⟨0, 8, 0⟩ 0 (by decide) (by decide)).1⟩

namespace jed

theorem startLine_cs (f : fuseBuilder) : f.startLine.cs = f.cs := by
  unfold fuseBuilder.startLine; split <;> rfl

theorem endLine_cs (f : fuseBuilder) : f.endLine.cs = f.cs := by
  unfold fuseBuilder.endLine; split <;> rfl

theorem addBit_cs (f : fuseBuilder) (b : Bool) :
    (f.addBit b).cs = f.cs.add b := by
  show f.startLine.cs.add b = f.cs.add b
  rw [startLine_cs]

theorem foldl_addBit_cs (bits : List Bool) : ∀ f : fuseBuilder,
    (bits.foldl (fun f b => f.addBit b) f).cs
      = bits.foldl checkSummer.add f.cs := by
  induction bits with
  | nil => intro f; rfl
  | cons b bs ih => intro f; rw [List.foldl_cons, List.foldl_cons, ih, addBit_cs]

theorem add_cs (f : fuseBuilder) (bits : List Bool) :
    (f.add bits).cs = bits.foldl checkSummer.add f.cs := by
  unfold fuseBuilder.add
  rw [endLine_cs, foldl_addBit_cs, startLine_cs]

theorem skip_cs (f : fuseBuilder) (bits : List Bool) (h : anyTrue bits = false) :
    (f.skip bits).cs = bits.foldl checkSummer.add f.cs := by
  have go : ∀ (bs : List Bool) (c : checkSummer), (∀ b ∈ bs, b = false) →
      bs.foldl (fun c _ => c.add false) c = bs.foldl checkSummer.add c := by
    intro bs
    induction bs with
    | nil => intro c _; rfl
    | cons b bs ih =>
      intro c hb
      rw [List.foldl_cons, List.foldl_cons, hb b (by simp)]
      exact ih _ (fun x hx => hb x (by simp [hx]))
  show bits.foldl (fun c _ => c.add false) f.cs = _
  refine go bits f.cs (fun b hb => ?_)
  simp only [anyTrue, List.any_eq_false, id] at h
  exact Bool.eq_false_iff.mpr (h b hb)

/-- The checksummer state after the grid rows: the fold of all row bits. -/
theorem rows_cs (rows : List (List Bool)) : ∀ f : fuseBuilder,
    ((rows.foldl (fun fb chunk =>
        if anyTrue chunk then fb.add chunk else fb.skip chunk) f).cs)
      = rows.flatten.foldl checkSummer.add f.cs := by
  induction rows with
  | nil => intro f; rfl
  | cons r rs ih =>
    intro f
    rw [List.foldl_cons, List.flatten_cons, List.foldl_append, ih]
    by_cases h : anyTrue r
    · rw [if_pos h, add_cs]
    · rw [if_neg h, skip_cs _ _ (by simpa using h)]

theorem interleave_cs (l : List (Bool × Bool)) : ∀ f : fuseBuilder,
    ((l.foldl (fun fb xa => (fb.addBit xa.1).addBit xa.2) f).cs)
      = ((l.map (fun p => [p.1, p.2])).flatten).foldl checkSummer.add f.cs := by
  induction l with
  | nil => intro f; rfl
  | cons p ps ih =>
    intro f
    rw [List.foldl_cons, List.map_cons, List.flatten_cons, List.foldl_append, ih,
      addBit_cs, addBit_cs]
    rfl

theorem emitFuses_cs (g : gal.GAL) :
    (emitFuses g).cs = (fuseBitsOf g).foldl checkSummer.add ⟨0, 0, 0⟩ := by
  unfold emitFuses fuseBitsOf
  simp only [interleaveBits]
  by_cases hc : g.Chip = gal.Chip.GAL22V10
  · simp only [hc, ne_eq, not_true_eq_false, if_false, ite_false, reduceCtorEq]
    rw [List.foldl_append, List.foldl_append, List.foldl_append]
    rw [add_cs, endLine_cs, interleave_cs, rows_cs]
    rfl
  · simp only [ne_eq, hc, not_false_eq_true, if_true, ite_true]
    by_cases h16 : g.Chip = gal.Chip.GAL16V8
    · simp only [h16, if_true, ite_true]
      rw [List.foldl_append, List.foldl_append, List.foldl_append,
        List.foldl_append, List.foldl_append]
      rw [add_cs, add_cs, add_cs, add_cs, add_cs, add_cs, rows_cs]
      rfl
    · simp only [h16, if_false, ite_false]
      rw [List.foldl_append, List.foldl_append, List.foldl_append]
      rw [add_cs, add_cs, rows_cs]
      rfl

end jed

namespace jed

theorem fuseRowsAux_flatten (fuel : Nat) : ∀ (k : Nat) (l : List Bool),
    0 < k → l.length ≤ k * fuel →
    (fuseRowsAux k fuel l).flatten = l := by
  induction fuel with
  | zero =>
    intro k l hk hlen
    have : l = [] := List.eq_nil_of_length_eq_zero (by
      have : k * 0 = 0 := by ring
      omega)
    subst this
    rfl
  | succ fuel ih =>
    intro k l hk hlen
    cases l with
    | nil => rfl
    | cons a as =>
      show (((a :: as).take k) :: fuseRowsAux k fuel ((a :: as).drop k)).flatten
        = a :: as
      rw [List.flatten_cons, ih k _ hk (by
        rw [List.length_drop]
        have : k * (fuel + 1) = k * fuel + k := by ring
        omega)]
      exact List.take_append_drop k (a :: as)

/-- The grid rows of a fuse list flatten back to the list (every list the
emitter meets is far below the `8192`-row fuel). -/
theorem fuseRows_flatten (l : List Bool) (k : Nat) (hk : 0 < k)
    (hlen : l.length ≤ k * 8192) :
    (fuseRows l k).flatten = l :=
  fuseRowsAux_flatten 8192 k l hk hlen

end jed

theorem lor_pow_eq_add (v k : Nat) (h : v < 2 ^ k) :
    v ||| (1 <<< k) = v + 2 ^ k := by
  rw [Nat.shiftLeft_eq, one_mul, Nat.lor_comm]
  rw [show (2 ^ k ||| v) = 2 ^ k * 1 ||| v by ring_nf]
  rw [← Nat.mul_add_lt_is_or h 1]
  ring

namespace jed

theorem foldl_add_chunk : ∀ (bits : List Bool) (k v s : Nat),
    bits.length = 8 - k → k < 8 → v < 2 ^ k →
    bits.foldl checkSummer.add ⟨k, v, s⟩
      = ⟨0, 0, (s + (v + 2 ^ k * bitsByteVal bits)) % 65536⟩ := by
  intro bits
  induction bits with
  | nil => intro k v s hlen hk hv; simp at hlen; omega
  | cons b bs ih =>
    intro k v s hlen hk hv
    rw [List.foldl_cons]
    have hv' : (if b then v ||| (1 <<< k) else v)
        = v + (if b then 2 ^ k else 0) := by
      cases b
      · simp
      · simp [lor_pow_eq_add v k hv]
    have hadd : checkSummer.add ⟨k, v, s⟩ b
        = if k + 1 = 8 then
            (⟨0, 0, (s + (v + (if b then 2 ^ k else 0))) % 65536⟩ : checkSummer)
          else ⟨k + 1, v + (if b then 2 ^ k else 0), s⟩ := by
      show (if k + 1 = 8 then
          (⟨0, 0, (s + (if b then v ||| (1 <<< k) else v)) % 65536⟩ : checkSummer)
        else ⟨k + 1, (if b then v ||| (1 <<< k) else v), s⟩) = _
      rw [hv']
    rw [hadd]
    by_cases h8 : k + 1 = 8
    · have hk7 : k = 7 := by omega
      have hbs : bs = [] := by
        have : bs.length = 0 := by simp at hlen; omega
        exact List.eq_nil_of_length_eq_zero this
      subst hbs
      rw [if_pos h8, List.foldl_nil]
      have : v + 2 ^ k * bitsByteVal [b]
          = v + (if b then 2 ^ k else 0) := by
        cases b <;> simp [bitsByteVal]
      rw [show bitsByteVal (b :: []) = bitsByteVal [b] from rfl]
      rw [this]
    · rw [if_neg h8]
      rw [ih (k + 1) (v + (if b then 2 ^ k else 0)) s
        (by simp at hlen ⊢; omega) (by omega)
        (by have : (if b then 2 ^ k else 0) ≤ 2 ^ k := by split <;> omega
            have h2 : (2 : Nat) ^ (k + 1) = 2 ^ k + 2 ^ k := by ring
            omega)]
      have : v + (if b then 2 ^ k else 0) + 2 ^ (k + 1) * bitsByteVal bs
          = v + 2 ^ k * bitsByteVal (b :: bs) := by
        show _ = v + 2 ^ k * ((if b then 1 else 0) + 2 * bitsByteVal bs)
        cases b <;> simp <;> ring
      rw [this]

theorem foldl_add_short : ∀ (bits : List Bool) (k v s : Nat),
    k + bits.length < 8 → v < 2 ^ k →
    bits.foldl checkSummer.add ⟨k, v, s⟩
      = ⟨k + bits.length, v + 2 ^ k * bitsByteVal bits, s⟩ := by
  intro bits
  induction bits with
  | nil => intro k v s _ _; simp [bitsByteVal]
  | cons b bs ih =>
    intro k v s hlen hv
    rw [List.foldl_cons]
    have hv' : (if b then v ||| (1 <<< k) else v)
        = v + (if b then 2 ^ k else 0) := by
      cases b
      · simp
      · simp [lor_pow_eq_add v k hv]
    have hadd : checkSummer.add ⟨k, v, s⟩ b
        = (⟨k + 1, v + (if b then 2 ^ k else 0), s⟩ : checkSummer) := by
      show (if k + 1 = 8 then
          (⟨0, 0, (s + (if b then v ||| (1 <<< k) else v)) % 65536⟩ : checkSummer)
        else ⟨k + 1, (if b then v ||| (1 <<< k) else v), s⟩) = _
      rw [hv', if_neg (by simp at hlen; omega)]
    rw [hadd]
    rw [ih (k + 1) (v + (if b then 2 ^ k else 0)) s
      (by simp at hlen ⊢; omega)
      (by have : (if b then 2 ^ k else 0) ≤ 2 ^ k := by split <;> omega
          have h2 : (2 : Nat) ^ (k + 1) = 2 ^ k + 2 ^ k := by ring
          omega)]
    have h1 : k + 1 + bs.length = k + (b :: bs).length := by simp; omega
    have h2 : v + (if b then 2 ^ k else 0) + 2 ^ (k + 1) * bitsByteVal bs
        = v + 2 ^ k * bitsByteVal (b :: bs) := by
      show _ = v + 2 ^ k * ((if b then 1 else 0) + 2 * bitsByteVal bs)
      cases b <;> simp <;> ring
    rw [h1, h2]

end jed

namespace jed

theorem csFold_sum (n : Nat) : ∀ (bits : List Bool), bits.length ≤ n →
    ∀ s : Nat, s < 65536 →
    (bits.foldl checkSummer.add ⟨0, 0, s⟩).get
      = (packBytes bits).foldl (fun a b => (a + b) % 65536) s := by
  induction n with
  | zero =>
    intro bits hlen s hs
    have : bits = [] := List.eq_nil_of_length_eq_zero (by omega)
    subst this
    simp [checkSummer.get, packBytes, Nat.mod_eq_of_lt hs]
  | succ n ih =>
    intro bits hlen s hs
    rcases bits with _ | ⟨b1, _ | ⟨b2, _ | ⟨b3, _ | ⟨b4, _ | ⟨b5, _ | ⟨b6,
      _ | ⟨b7, _ | ⟨b8, rest⟩⟩⟩⟩⟩⟩⟩⟩
    · simp [checkSummer.get, packBytes, Nat.mod_eq_of_lt hs]
    · rw [foldl_add_short [b1] 0 0 s (by simp) (by decide)]
      simp [checkSummer.get, packBytes]
    · rw [foldl_add_short [b1, b2] 0 0 s (by simp) (by decide)]
      simp [checkSummer.get, packBytes]
    · rw [foldl_add_short [b1, b2, b3] 0 0 s (by simp) (by decide)]
      simp [checkSummer.get, packBytes]
    · rw [foldl_add_short [b1, b2, b3, b4] 0 0 s (by simp) (by decide)]
      simp [checkSummer.get, packBytes]
    · rw [foldl_add_short [b1, b2, b3, b4, b5] 0 0 s (by simp) (by decide)]
      simp [checkSummer.get, packBytes]
    · rw [foldl_add_short [b1, b2, b3, b4, b5, b6] 0 0 s (by simp) (by decide)]
      simp [checkSummer.get, packBytes]
    · rw [foldl_add_short [b1, b2, b3, b4, b5, b6, b7] 0 0 s (by simp) (by decide)]
      simp [checkSummer.get, packBytes]
    · rw [show (b1 :: b2 :: b3 :: b4 :: b5 :: b6 :: b7 :: b8 :: rest)
          = [b1, b2, b3, b4, b5, b6, b7, b8] ++ rest from rfl,
        List.foldl_append]
      rw [foldl_add_chunk [b1, b2, b3, b4, b5, b6, b7, b8] 0 0 s rfl
        (by decide) (by decide)]
      rw [ih rest (by simp at hlen; omega) _ (Nat.mod_lt _ (by decide))]
      rw [show packBytes ([b1, b2, b3, b4, b5, b6, b7, b8] ++ rest)
          = bitsByteVal [b1, b2, b3, b4, b5, b6, b7, b8] :: packBytes rest
          from rfl,
        List.foldl_cons]
      have he : (s + (0 + 2 ^ 0 * bitsByteVal [b1, b2, b3, b4, b5, b6, b7, b8]))
            % 65536
          = (s + bitsByteVal [b1, b2, b3, b4, b5, b6, b7, b8]) % 65536 := by
        ring_nf
      rw [he]

theorem csGet_spec (bits : List Bool) :
    (bits.foldl checkSummer.add ⟨0, 0, 0⟩).get = specFuseChecksum bits :=
  csFold_sum bits.length bits le_rfl 0 (by decide)

end jed

namespace jed

theorem out_split (pre A C post : List Nat) :
    ∃ p q, pre ++ (A ++ strBytes "*C" ++ C ++ [10]) ++ post
      = p ++ strBytes "*C" ++ C ++ [10] ++ q :=
  ⟨pre ++ A, post, by simp⟩

/-- Claim C2: for every fuse map emitted by the JEDEC emitter (over a fuse
list that fills whole grid rows), the value printed after `*C` equals the
16-bit unsigned sum of the fuse bytes obtained by packing every bit fed to
the checksummer LSB-first 8 bits per byte, any trailing partial byte added
as-is, and the bits of all-zero fuse rows skipped from the `*L` output still
contribute (the packed bit string starts with the complete `g.Fuses`). -/
theorem C2_main (cfg : Config) (g : gal.GAL)
    (hpos : 0 < g.Chip.NumCols)
    (hlen : g.Fuses.length ≤ g.Chip.NumCols * 8192) :
    ∃ pre post : List Nat,
      MakeJEDEC cfg g
        = pre ++ strBytes "*C"
          ++ hex4Bytes (specFuseChecksum (g.Fuses
              ++ (if g.Chip ≠ gal.Chip.GAL22V10 then g.Xor
                  else interleaveBits g.Xor g.AC1)
              ++ g.Sig
              ++ (if g.Chip = gal.Chip.GAL16V8 then
                    g.AC1 ++ g.PT ++ [g.Syn, g.AC0] else [])))
          ++ [10] ++ post := by
  have hbits : fuseBitsOf g
      = g.Fuses
        ++ (if g.Chip ≠ gal.Chip.GAL22V10 then g.Xor
            else interleaveBits g.Xor g.AC1)
        ++ g.Sig
        ++ (if g.Chip = gal.Chip.GAL16V8 then
              g.AC1 ++ g.PT ++ [g.Syn, g.AC0] else []) := by
    unfold fuseBitsOf
    rw [fuseRows_flatten g.Fuses _ hpos hlen]
  have hget : (emitFuses g).cs.get
      = specFuseChecksum (g.Fuses
          ++ (if g.Chip ≠ gal.Chip.GAL22V10 then g.Xor
              else interleaveBits g.Xor g.AC1)
          ++ g.Sig
          ++ (if g.Chip = gal.Chip.GAL16V8 then
                g.AC1 ++ g.PT ++ [g.Syn, g.AC0] else [])) := by
    rw [emitFuses_cs, csGet_spec, hbits]
  have hshape : MakeJEDEC cfg g
      = ([2, 10] ++ (cfg.Header.map
          (fun line => strBytes line
            ++ (if endsInNewline line then [] else [10]))).flatten
          ++ strBytes "*F0" ++ [10]
          ++ (if cfg.SecurityBit then strBytes "*G1" else strBytes "*G0")
          ++ [10]
          ++ strBytes "*QF" ++ decBytes g.Chip.TotalSize ++ [10])
        ++ ((emitFuses g).endLine.out ++ strBytes "*C"
            ++ hex4Bytes (specFuseChecksum (g.Fuses
                ++ (if g.Chip ≠ gal.Chip.GAL22V10 then g.Xor
                    else interleaveBits g.Xor g.AC1)
                ++ g.Sig
                ++ (if g.Chip = gal.Chip.GAL16V8 then
                      g.AC1 ++ g.PT ++ [g.Syn, g.AC0] else [])))
            ++ [10])
        ++ (strBytes "*" ++ [10, 3]
          ++ hex4Bytes (fileChecksum (([2, 10] ++ (cfg.Header.map
              (fun line => strBytes line
                ++ (if endsInNewline line then [] else [10]))).flatten
              ++ strBytes "*F0" ++ [10]
              ++ (if cfg.SecurityBit then strBytes "*G1" else strBytes "*G0")
              ++ [10]
              ++ strBytes "*QF" ++ decBytes g.Chip.TotalSize ++ [10])
            ++ ((emitFuses g).endLine.out ++ strBytes "*C"
                ++ hex4Bytes (specFuseChecksum (g.Fuses
                    ++ (if g.Chip ≠ gal.Chip.GAL22V10 then g.Xor
                        else interleaveBits g.Xor g.AC1)
                    ++ g.Sig
                    ++ (if g.Chip = gal.Chip.GAL16V8 then
                          g.AC1 ++ g.PT ++ [g.Syn, g.AC0] else [])))
                ++ [10])
            ++ strBytes "*" ++ [10, 3]))
          ++ [10]) := by
    unfold MakeJEDEC fuseBuilder.checksum
    simp only
    rw [endLine_cs, hget]
    simp
  rw [hshape]
  exact out_split _ _ _ _

end jed

namespace jed

/-- Witness for C2: a fresh GAL16V8 (all-ones fuse map, every grid row
skipped from the output) satisfies the hypotheses. -/
theorem C2_main_witness :
    0 < (gal.NewGAL gal.Chip.GAL16V8).Chip.NumCols
    ∧ (gal.NewGAL gal.Chip.GAL16V8).Fuses.length
        ≤ (gal.NewGAL gal.Chip.GAL16V8).Chip.NumCols * 8192
    ∧ (∃ pre post : List Nat,
        MakeJEDEC ⟨false, []⟩ (gal.NewGAL gal.Chip.GAL16V8)
          = pre ++ strBytes "*C"
            ++ hex4Bytes (specFuseChecksum ((gal.NewGAL gal.Chip.GAL16V8).Fuses
                ++ (if (gal.NewGAL gal.Chip.GAL16V8).Chip ≠ gal.Chip.GAL22V10
                    then (gal.NewGAL gal.Chip.GAL16V8).Xor
                    else interleaveBits (gal.NewGAL gal.Chip.GAL16V8).Xor
                      (gal.NewGAL gal.Chip.GAL16V8).AC1)
                ++ (gal.NewGAL gal.Chip.GAL16V8).Sig
                ++ (if (gal.NewGAL gal.Chip.GAL16V8).Chip = gal.Chip.GAL16V8
                    then (gal.NewGAL gal.Chip.GAL16V8).AC1
                      ++ (gal.NewGAL gal.Chip.GAL16V8).PT
                      ++ [(gal.NewGAL gal.Chip.GAL16V8).Syn,
                          (gal.NewGAL gal.Chip.GAL16V8).AC0] else [])))
            ++ [10] ++ post) :=
  ⟨by decide, by simp [gal.NewGAL]; decide,
    C2_main ⟨false, []⟩ (gal.NewGAL gal.Chip.GAL16V8) (by decide)
      (by simp [gal.NewGAL]; decide)⟩

end jed

namespace cupl

/-- The normalized extension produced by `parseEquationLHS` expressed through
the raw (un-normalized) extension of the LHS. -/
theorem parseLHS_ext (lhs : String) (info : LHSInfo)
    (h : parseEquationLHS lhs = .ok info) :
    info.Extension
      = (if rawExtensionOf lhs = "OE" then "E"
         else if rawExtensionOf lhs = "D" then "R"
         else rawExtensionOf lhs) := by
  unfold parseEquationLHS at h
  unfold rawExtensionOf
  simp only at h ⊢
  by_cases h0 : (trimSpace lhs).data.isEmpty
  · rw [if_pos h0] at h
    cases h
  · rw [if_neg h0] at h
    by_cases h1 : (if listStartsWith (trimSpace lhs).data ['!'] then
        trimSpace ⟨(trimSpace lhs).data.tail⟩ else trimSpace lhs).data.isEmpty
    · rw [if_pos h1] at h
      cases h
    · rw [if_neg h1] at h
      rcases hm : indexOfChar (if listStartsWith (trimSpace lhs).data ['!'] then
          trimSpace ⟨(trimSpace lhs).data.tail⟩ else trimSpace lhs) '.'
        with _ | idx
      · rw [hm] at h
        cases h
        simp
      · rw [hm] at h
        cases h
        simp

end cupl

namespace cupl

/-- The parsed extension is `E` exactly on output-enable equations. -/
theorem parseLHS_E_iff (lhs : String) (info : LHSInfo)
    (h : parseEquationLHS lhs = .ok info) :
    info.Extension = "E" ↔ isOEEquation lhs := by
  rw [parseLHS_ext lhs info h]
  unfold isOEEquation
  by_cases hOE : rawExtensionOf lhs = "OE"
  · simp [hOE]
  · rw [if_neg hOE]
    by_cases hD : rawExtensionOf lhs = "D"
    · simp [hD, hOE]
    · rw [if_neg hD]
      constructor
      · intro he; exact Or.inr he
      · rintro (he | he)
        · exact absurd he hOE
        · exact he

/-- The parsed extension is `R` exactly on registered equations. -/
theorem parseLHS_R_iff (lhs : String) (info : LHSInfo)
    (h : parseEquationLHS lhs = .ok info) :
    info.Extension = "R" ↔ isRegEquation lhs := by
  rw [parseLHS_ext lhs info h]
  unfold isRegEquation
  by_cases hOE : rawExtensionOf lhs = "OE"
  · simp [hOE]
  · rw [if_neg hOE]
    by_cases hD : rawExtensionOf lhs = "D"
    · simp [hD]
    · rw [if_neg hD]
      constructor
      · intro he; exact Or.inl he
      · rintro (he | he)
        · exact he
        · exact absurd he hD

end cupl

namespace cupl

open Expr

/-- Claim C6: for every equation whose LHS parses, the compiler's polarity
hoist absorbs a top-level negation (flips the polarity and compiles the
inner expression) if and only if the top-level expression is a negation and
the equation is not APPEND, not an output-enable (`.OE`/`.E`) and not
registered (`.R`/`.D`); when it flips it compiles exactly the negation's
operand, and when it does not flip it compiles the expression unchanged. -/
theorem C6_main (eq : Equation) (info : LHSInfo)
    (h : parseEquationLHS eq.LHS = .ok info) :
    ((polarityHoist eq info).2 = true
      ↔ (∃ x, eq.Expr = ExprNot x) ∧ ¬eq.Append
          ∧ ¬isOEEquation eq.LHS ∧ ¬isRegEquation eq.LHS)
    ∧ (∀ x, eq.Expr = ExprNot x → (polarityHoist eq info).2 = true →
        (polarityHoist eq info).1 = x)
    ∧ ((polarityHoist eq info).2 = false →
        (polarityHoist eq info).1 = eq.Expr) := by
  have hE := parseLHS_E_iff eq.LHS info h
  have hR := parseLHS_R_iff eq.LHS info h
  cases heq : eq.Expr with
  | ExprNot x =>
    by_cases hc : ¬eq.Append ∧ info.Extension ≠ "E" ∧ info.Extension ≠ "R"
    · have hp : polarityHoist eq info = (x, true) := by
        simp only [polarityHoist, heq, if_pos hc]
      rw [hp]
      refine ⟨iff_of_true rfl ⟨⟨x, rfl⟩, hc.1,
          fun ho => hc.2.1 (hE.mpr ho), fun ho => hc.2.2 (hR.mpr ho)⟩,
        ?_, ?_⟩
      · intro y hy _
        injection hy
      · intro hfalse
        exact nomatch hfalse
    · have hp : polarityHoist eq info = (ExprNot x, false) := by
        simp only [polarityHoist, heq, if_neg hc]
      rw [hp]
      refine ⟨iff_of_false (by simp) ?_, ?_, fun _ => rfl⟩
      · rintro ⟨_, ha, hoe, hreg⟩
        exact hc ⟨ha, fun he => hoe (hE.mp he), fun he => hreg (hR.mp he)⟩
      · intro y _ hfalse
        exact nomatch hfalse
  | ExprConst v =>
    have hp : polarityHoist eq info = (ExprConst v, false) := by
      simp only [polarityHoist, heq]
    rw [hp]
    refine ⟨iff_of_false (by simp) ?_, ?_, fun _ => rfl⟩
    · rintro ⟨⟨y, hy⟩, -, -, -⟩
      exact nomatch hy
    · intro y hy _
      exact nomatch hy
  | ExprIdent n =>
    have hp : polarityHoist eq info = (ExprIdent n, false) := by
      simp only [polarityHoist, heq]
    rw [hp]
    refine ⟨iff_of_false (by simp) ?_, ?_, fun _ => rfl⟩
    · rintro ⟨⟨y, hy⟩, -, -, -⟩
      exact nomatch hy
    · intro y hy _
      exact nomatch hy
  | ExprAnd a b =>
    have hp : polarityHoist eq info = (ExprAnd a b, false) := by
      simp only [polarityHoist, heq]
    rw [hp]
    refine ⟨iff_of_false (by simp) ?_, ?_, fun _ => rfl⟩
    · rintro ⟨⟨y, hy⟩, -, -, -⟩
      exact nomatch hy
    · intro y hy _
      exact nomatch hy
  | ExprOr a b =>
    have hp : polarityHoist eq info = (ExprOr a b, false) := by
      simp only [polarityHoist, heq]
    rw [hp]
    refine ⟨iff_of_false (by simp) ?_, ?_, fun _ => rfl⟩
    · rintro ⟨⟨y, hy⟩, -, -, -⟩
      exact nomatch hy
    · intro y hy _
      exact nomatch hy
  | ExprXor a b =>
    have hp : polarityHoist eq info = (ExprXor a b, false) := by
      simp only [polarityHoist, heq]
    rw [hp]
    refine ⟨iff_of_false (by simp) ?_, ?_, fun _ => rfl⟩
    · rintro ⟨⟨y, hy⟩, -, -, -⟩
      exact nomatch hy
    · intro y hy _
      exact nomatch hy
  | ExprFieldRange f lo hi =>
    have hp : polarityHoist eq info = (ExprFieldRange f lo hi, false) := by
      simp only [polarityHoist, heq]
    rw [hp]
    refine ⟨iff_of_false (by simp) ?_, ?_, fun _ => rfl⟩
    · rintro ⟨⟨y, hy⟩, -, -, -⟩
      exact nomatch hy
    · intro y hy _
      exact nomatch hy
  | ExprFieldEquality f vals neg =>
    have hp : polarityHoist eq info = (ExprFieldEquality f vals neg, false) := by
      simp only [polarityHoist, heq]
    rw [hp]
    refine ⟨iff_of_false (by simp) ?_, ?_, fun _ => rfl⟩
    · rintro ⟨⟨y, hy⟩, -, -, -⟩
      exact nomatch hy
    · intro y hy _
      exact nomatch hy
  | ExprIdentList ns =>
    have hp : polarityHoist eq info = (ExprIdentList ns, false) := by
      simp only [polarityHoist, heq]
    rw [hp]
    refine ⟨iff_of_false (by simp) ?_, ?_, fun _ => rfl⟩
    · rintro ⟨⟨y, hy⟩, -, -, -⟩
      exact nomatch hy
    · intro y hy _
      exact nomatch hy

end cupl

namespace cupl

open Expr

/-- Witness for C6: the equation `y = !x` parses and its negation is
hoisted. -/
theorem C6_main_witness :
    parseEquationLHS (Equation.mk 1 "y" (ExprNot (ExprIdent "x")) false).LHS
      = .ok (LHSInfo.mk "y" false "")
    ∧ (((polarityHoist (Equation.mk 1 "y" (ExprNot (ExprIdent "x")) false)
          (LHSInfo.mk "y" false "")).2 = true
        ↔ (∃ x, (Equation.mk 1 "y" (ExprNot (ExprIdent "x")) false).Expr
              = ExprNot x)
          ∧ ¬(Equation.mk 1 "y" (ExprNot (ExprIdent "x")) false).Append
          ∧ ¬isOEEquation (Equation.mk 1 "y" (ExprNot (ExprIdent "x")) false).LHS
          ∧ ¬isRegEquation (Equation.mk 1 "y" (ExprNot (ExprIdent "x")) false).LHS)
      ∧ (∀ x, (Equation.mk 1 "y" (ExprNot (ExprIdent "x")) false).Expr
            = ExprNot x →
          (polarityHoist (Equation.mk 1 "y" (ExprNot (ExprIdent "x")) false)
            (LHSInfo.mk "y" false "")).2 = true →
          (polarityHoist (Equation.mk 1 "y" (ExprNot (ExprIdent "x")) false)
            (LHSInfo.mk "y" false "")).1 = x)
      ∧ ((polarityHoist (Equation.mk 1 "y" (ExprNot (ExprIdent "x")) false)
            (LHSInfo.mk "y" false "")).2 = false →
          (polarityHoist (Equation.mk 1 "y" (ExprNot (ExprIdent "x")) false)
            (LHSInfo.mk "y" false "")).1
            = (Equation.mk 1 "y" (ExprNot (ExprIdent "x")) false).Expr)) :=
  ⟨rfl, C6_main (Equation.mk 1 "y" (ExprNot (ExprIdent "x")) false)
    (LHSInfo.mk "y" false "") rfl⟩

end cupl

namespace cupl

set_option maxRecDepth 8000 in
/-- Claim C8 refuted (code bug): compilation is NOT deterministic.  The two
`Content` values below are the same Go value — their `Pins` maps hold the
same three entries (the lists are permutations of each other) and every
other field is identical — but the model's two iteration orders of the
`Pins` map, both legitimate for a Go `map` range, drive the duplicate pin
name `a` to pin 13 in one run and to pin 14 in the other: both runs compile
successfully, yet `Compile` followed by `MakeJEDEC` with the same `Config`
produces different JEDEC bytes. -/
theorem C8_main :
    ([((13 : Nat), PinDef.mk "a" false), (14, PinDef.mk "a" false),
        (12, PinDef.mk "y" false)].Perm
      [(14, PinDef.mk "a" false), (13, PinDef.mk "a" false),
        (12, PinDef.mk "y" false)])
    ∧ (Compile (Content.mk [] "g16v8as"
        [(13, PinDef.mk "a" false), (14, PinDef.mk "a" false),
          (12, PinDef.mk "y" false)] []
        [Equation.mk 1 "y" (Expr.ExprIdent "a") false])).toOption.isSome = true
    ∧ (Compile (Content.mk [] "g16v8as"
        [(14, PinDef.mk "a" false), (13, PinDef.mk "a" false),
          (12, PinDef.mk "y" false)] []
        [Equation.mk 1 "y" (Expr.ExprIdent "a") false])).toOption.isSome = true
    ∧ (Compile (Content.mk [] "g16v8as"
        [(13, PinDef.mk "a" false), (14, PinDef.mk "a" false),
          (12, PinDef.mk "y" false)] []
        [Equation.mk 1 "y" (Expr.ExprIdent "a") false])).toOption.map
        (jed.MakeJEDEC (jed.Config.mk false []))
      ≠ (Compile (Content.mk [] "g16v8as"
        [(14, PinDef.mk "a" false), (13, PinDef.mk "a" false),
          (12, PinDef.mk "y" false)] []
        [Equation.mk 1 "y" (Expr.ExprIdent "a") false])).toOption.map
        (jed.MakeJEDEC (jed.Config.mk false [])) := by
  refine ⟨by decide, by decide, by decide, by decide⟩

end cupl

namespace cupl

/-- Go map insert then lookup of the same key. -/
theorem lookupA_upsertA_self {κ α : Type} [DecidableEq κ]
    (m : List (κ × α)) (k : κ) (v : α) :
    lookupA (upsertA m k v) k = some v := by
  induction m with
  | nil => simp [upsertA, lookupA]
  | cons p rest ih =>
    rcases p with ⟨q, w⟩
    by_cases h : q = k
    · simp [upsertA, lookupA, h]
    · simp [upsertA, lookupA, h, ih]

/-- Go map insert leaves other keys alone. -/
theorem lookupA_upsertA_ne {κ α : Type} [DecidableEq κ]
    (m : List (κ × α)) (k n : κ) (v : α) (h : k ≠ n) :
    lookupA (upsertA m k v) n = lookupA m n := by
  induction m with
  | nil => simp [upsertA, lookupA, h]
  | cons p rest ih =>
    rcases p with ⟨q, w⟩
    by_cases hq : q = k
    · subst hq
      simp [upsertA, lookupA, h]
    · simp [upsertA, lookupA, hq, ih]

/-- The synthetic `VCC`/`GND` symbol-table entries always map to the supply
pins (they are inserted after the user pin loop, so they win over any
user-declared pin of the same name). -/
theorem pinsSymbolsOf_power (c : Content) (chip : gal.Chip)
    (ps : List String × List (String × Symbol))
    (h : pinsSymbolsOf c chip = .ok ps) :
    lookupA ps.2 "VCC" = some ⟨chip.NumPins, false⟩
    ∧ lookupA ps.2 "GND" = some ⟨chip.NumPins / 2, false⟩ := by
  unfold pinsSymbolsOf at h
  simp only at h
  rcases hf : c.Pins.foldl
      (fun (acc : Except String (List String × List (String × Symbol))) pd =>
        match acc with
        | .error e => .error e
        | .ok (pins, symbols) =>
          if pd.1 < 1 ∨ pd.1 > chip.NumPins then .error "pin out of range"
          else .ok (pins.set (pd.1 - 1) pd.2.Name,
                    upsertA symbols pd.2.Name ⟨pd.1, pd.2.ActiveLow⟩))
      (.ok ((gal.NewBlueprint chip).Pins, [])) with e | pr
  · rw [hf] at h
    cases h
  · rw [hf] at h
    rcases pr with ⟨pins, symbols⟩
    cases h
    constructor
    · rw [lookupA_upsertA_ne _ _ _ _ (by decide), lookupA_upsertA_self]
    · rw [lookupA_upsertA_self]

end cupl

namespace gal

/-- The column lookup reports every supply pin as a power pin, in every
mode of both chips. -/
theorem pinToColumn_power (g : GAL) (p : Nat) (hp : powerPin g.Chip p) :
    pinToColumn g p = .error "pin is power" := by
  unfold pinToColumn
  rcases hp with ⟨hc, hp | hp⟩ | ⟨hc, hp | hp⟩ <;> subst hp <;> rw [hc]
  · rw [if_neg (by simp [Chip.NumPins]), if_pos rfl]
    by_cases hm : g.Syn = true ∧ ¬g.AC0 = true
    · rw [if_pos hm]
      rfl
    · rw [if_neg hm]
      rfl
  · rw [if_neg (by simp [Chip.NumPins]), if_pos rfl]
    by_cases hm : g.Syn = true ∧ ¬g.AC0 = true
    · rw [if_pos hm]
      rfl
    · rw [if_neg hm]
      rfl
  · rw [if_neg (by simp [Chip.NumPins]), if_neg (by decide), if_pos rfl]
    rfl
  · rw [if_neg (by simp [Chip.NumPins]), if_neg (by decide), if_pos rfl]
    rfl

/-- Writing an AND-array input for a supply pin always fails: the power
pins have no array column. -/
theorem setAnd_power (g : GAL) (row p : Nat) (neg : Bool)
    (hp : powerPin g.Chip p) :
    setAnd g row p neg = .error "pin is power" := by
  unfold setAnd
  rw [pinToColumn_power g p hp]

end gal

namespace cupl

set_option maxRecDepth 8000 in
/-- Counterexample to C9 as stated: the equation
`y = (x & VCC) # (x & !VCC)` lowers to product terms that every one contain
a literal naming `VCC`, yet `Compile` succeeds — the Quine-McCluskey
minimizer erases the `VCC` literal before placement, so no power-pin column
is ever requested. -/
theorem C9_counterexample :
    (match exprToTerms (Expr.ExprOr
        (Expr.ExprAnd (Expr.ExprIdent "x") (Expr.ExprIdent "VCC"))
        (Expr.ExprAnd (Expr.ExprIdent "x")
          (Expr.ExprNot (Expr.ExprIdent "VCC")))) [] [] with
      | .ok ts => ts.all (fun t => t.Lits.any (fun l => l.Name = "VCC"))
      | .error _ => false) = true
    ∧ (Compile (Content.mk [] "g16v8as"
        [(1, PinDef.mk "x" false), (12, PinDef.mk "y" false)] []
        [Equation.mk 1 "y" (Expr.ExprOr
          (Expr.ExprAnd (Expr.ExprIdent "x") (Expr.ExprIdent "VCC"))
          (Expr.ExprAnd (Expr.ExprIdent "x")
            (Expr.ExprNot (Expr.ExprIdent "VCC")))) false])).toOption.isSome
      = true := ⟨by decide, by decide⟩

set_option maxRecDepth 8000 in
/-- Claim C9, amended: `VCC` and `GND` are always present in the symbol
table as synthetic entries mapped to the supply pins, and a product term
whose literals still name `VCC`/`GND` at placement time makes the fuse
write fail with `pin is power` (the supply pins have no AND-array column),
as the third conjunct shows for `y = VCC`: but an equation merely
CONTAINING such a literal in its compiled product terms need not error,
because minimization can erase the literal before placement
(`C9_counterexample`). -/
theorem C9_main :
    (∀ (g : gal.GAL) (row p : Nat) (neg : Bool), gal.powerPin g.Chip p →
        gal.setAnd g row p neg = .error "pin is power")
    ∧ (∀ (c : Content) (chip : gal.Chip)
          (ps : List String × List (String × Symbol)),
        pinsSymbolsOf c chip = .ok ps →
        lookupA ps.2 "VCC" = some ⟨chip.NumPins, false⟩
        ∧ lookupA ps.2 "GND" = some ⟨chip.NumPins / 2, false⟩)
    ∧ (match Compile (Content.mk [] "g16v8as"
        [(1, PinDef.mk "x" false), (12, PinDef.mk "y" false)] []
        [Equation.mk 1 "y" (Expr.ExprIdent "VCC") false]) with
      | .error e => decide (e = "pin is power")
      | .ok _ => false) = true :=
  ⟨fun g row p neg hp => gal.setAnd_power g row p neg hp,
   fun c chip ps h => pinsSymbolsOf_power c chip ps h,
   by decide⟩

/-- Witness for C9's amended statement: pin 20 of the GAL16V8 is a power
pin, `setAnd` rejects it, and the symbol table of an empty pin map binds
`VCC` to pin 20. -/
theorem C9_main_witness :
    gal.powerPin (gal.NewGAL gal.Chip.GAL16V8).Chip 20
    ∧ gal.setAnd (gal.NewGAL gal.Chip.GAL16V8) 0 20 false
        = .error "pin is power"
    ∧ lookupA [("VCC", (⟨20, false⟩ : Symbol)),
        ("GND", ⟨10, false⟩)] "VCC" = some ⟨20, false⟩ :=
  ⟨Or.inl ⟨rfl, Or.inr rfl⟩,
   C9_main.1 (gal.NewGAL gal.Chip.GAL16V8) 0 20 false
     (Or.inl ⟨rfl, Or.inr rfl⟩),
   by
     have := (C9_main.2.1 (Content.mk [] "g16v8as" [] [] [])
       gal.Chip.GAL16V8
       ((gal.NewBlueprint gal.Chip.GAL16V8).Pins,
         [("VCC", ⟨20, false⟩), ("GND", ⟨10, false⟩)]) rfl).1
     exact this⟩

end cupl



/-- Go's byte-wise string order is total. -/
theorem charsLE_total (a b : List Char) : charsLE a b = true ∨ charsLE b a = true := by
  induction a generalizing b with
  | nil => left; rfl
  | cons x xs ih =>
    cases b with
    | nil => right; rfl
    | cons y ys =>
      by_cases h1 : x.val.toNat < y.val.toNat
      · left; simp [charsLE, h1]
      · by_cases h2 : y.val.toNat < x.val.toNat
        · right; simp [charsLE, h2]
        · rcases ih ys with h | h
          · left; simp [charsLE, h1, h2, h]
          · right; simp [charsLE, h1, h2, h]

/-- Go's byte-wise string order is antisymmetric. -/
theorem charsLE_antisymm (a b : List Char) (h1 : charsLE a b = true)
    (h2 : charsLE b a = true) : a = b := by
  induction a generalizing b with
  | nil =>
    cases b with
    | nil => rfl
    | cons y ys => simp [charsLE] at h2
  | cons x xs ih =>
    cases b with
    | nil => simp [charsLE] at h1
    | cons y ys =>
      by_cases hlt : x.val.toNat < y.val.toNat
      · simp [charsLE, hlt] at h2
        omega
      · by_cases hgt : y.val.toNat < x.val.toNat
        · simp [charsLE, hlt, hgt] at h1
        · simp [charsLE, hlt, hgt] at h1 h2
          have hxy : x = y := by
            have hn : x.val.toNat = y.val.toNat := by omega
            exact Char.eq_of_val_eq (by
              apply UInt32.eq_of_toBitVec_eq
              apply BitVec.eq_of_toNat_eq
              exact hn)
          rw [hxy, ih ys h1 h2]

/-- Totality of the string order. -/
theorem strLE_total (a b : String) : strLE a b = true ∨ strLE b a = true :=
  charsLE_total a.data b.data

/-- Antisymmetry of the string order. -/
theorem strLE_antisymm (a b : String) (h1 : strLE a b = true)
    (h2 : strLE b a = true) : a = b := by
  have hd := charsLE_antisymm a.data b.data h1 h2
  cases a
  cases b
  exact congrArg String.mk hd

/-- Asymmetry of the strict string order. -/
theorem strLT_asymm (a b : String) (h1 : cupl.strLT a b = true)
    (h2 : cupl.strLT b a = true) : False := by
  unfold cupl.strLT at h1 h2
  simp only [Bool.and_eq_true, decide_eq_true_eq] at h1 h2
  exact h1.2 (strLE_antisymm a b h1.1 h2.1)

/-- Sorted insertion permutes. -/
theorem insertLe_perm {α : Type} (le : α → α → Bool) (x : α) (l : List α) :
    (insertLe le x l).Perm (x :: l) := by
  induction l with
  | nil => exact List.Perm.refl _
  | cons y ys ih =>
    unfold insertLe
    by_cases h : le x y
    · rw [if_pos h]
    · rw [if_neg h]
      exact (List.Perm.cons y ih).trans (List.Perm.swap x y ys)

/-- The insertion sort permutes its input. -/
theorem sortBy_perm {α : Type} (le : α → α → Bool) (l : List α) :
    (sortBy le l).Perm l := by
  induction l with
  | nil => exact List.Perm.refl _
  | cons x xs ih =>
    exact (insertLe_perm le x (sortBy le xs)).trans (List.Perm.cons x ih)

/-- Sorting preserves membership. -/
theorem mem_sortBy {α : Type} (le : α → α → Bool) (l : List α) (a : α) :
    a ∈ sortBy le l ↔ a ∈ l :=
  (sortBy_perm le l).mem_iff

/-- Sorting an already-sorted list is the identity. -/
theorem sortBy_sorted_id {α : Type} (le : α → α → Bool) (l : List α)
    (h : l.Pairwise (fun a b => le a b = true)) : sortBy le l = l := by
  induction l with
  | nil => rfl
  | cons x xs ih =>
    rw [List.pairwise_cons] at h
    show insertLe le x (sortBy le xs) = x :: xs
    rw [ih h.2]
    cases xs with
    | nil => rfl
    | cons y ys =>
      show (if le x y then x :: y :: ys else y :: insertLe le x ys) = _
      rw [if_pos (h.1 y (by simp))]

/-- Sorting a mapped list sorts by the mapped key. -/
theorem sortBy_map {α β : Type} (le : β → β → Bool) (f : α → β) (l : List α) :
    sortBy le (l.map f) = (sortBy (fun a b => le (f a) (f b)) l).map f := by
  have hins : ∀ (x : α) (ys : List α),
      insertLe le (f x) (ys.map f)
        = (insertLe (fun a b => le (f a) (f b)) x ys).map f := by
    intro x ys
    induction ys with
    | nil => rfl
    | cons y ys ih =>
      rw [List.map_cons]
      show (if le (f x) (f y) then f x :: f y :: List.map f ys
          else f y :: insertLe le (f x) (List.map f ys)) = _
      rw [show insertLe (fun a b => le (f a) (f b)) x (y :: ys)
          = if le (f x) (f y) then x :: y :: ys
            else y :: insertLe (fun a b => le (f a) (f b)) x ys from rfl]
      by_cases h : le (f x) (f y)
      · rw [if_pos h, if_pos h]
        rfl
      · rw [if_neg h, if_neg h, List.map_cons, ih]
  induction l with
  | nil => rfl
  | cons x xs ih =>
    show insertLe le (f x) ((xs.map f) |> sortBy le) = _
    rw [ih, hins]
    rfl

/-- The source's bit test `x & (1 << i) == 0` is the negated `testBit`. -/
theorem and_two_pow_eq_zero_iff (m i : Nat) :
    (m &&& (1 <<< i) = 0) ↔ m.testBit i = false := by
  rw [show (1 <<< i) = 2 ^ i by rw [Nat.shiftLeft_eq, one_mul],
    Nat.and_two_pow]
  cases h : m.testBit i
  · simp
  · have hp : 0 < 2 ^ i := Nat.pos_pow_of_pos i (by omega)
    simp [Nat.ne_of_gt hp]

namespace cupl

/-- Mask bits of the literal fold, one step at a time. -/
theorem termToImplicant_foldl_mask (vars : List String)
    (lits : List Literal) : ∀ (acc : implicant) (i : Nat),
    ((lits.foldl (fun acc l =>
        let bit := 1 <<< indexOfName vars l.Name
        { value := if l.Neg then acc.value else acc.value ||| bit,
          mask := acc.mask ||| bit }) acc).mask.testBit i)
      = (acc.mask.testBit i
          || lits.any (fun l => decide (indexOfName vars l.Name = i))) := by
  induction lits with
  | nil => intro acc i; simp
  | cons l ls ih =>
    intro acc i
    rw [List.foldl_cons, ih, List.any_cons]
    simp only
    rw [Nat.testBit_or,
      show (1 <<< indexOfName vars l.Name) = 2 ^ indexOfName vars l.Name
        by rw [Nat.shiftLeft_eq, one_mul],
      Nat.testBit_two_pow]
    cases acc.mask.testBit i <;> cases h : decide (indexOfName vars l.Name = i) <;>
      simp_all

/-- Value bits of the literal fold, one step at a time. -/
theorem termToImplicant_foldl_value (vars : List String)
    (lits : List Literal) : ∀ (acc : implicant) (i : Nat),
    ((lits.foldl (fun acc l =>
        let bit := 1 <<< indexOfName vars l.Name
        { value := if l.Neg then acc.value else acc.value ||| bit,
          mask := acc.mask ||| bit }) acc).value.testBit i)
      = (acc.value.testBit i
          || lits.any (fun l =>
              !l.Neg && decide (indexOfName vars l.Name = i))) := by
  induction lits with
  | nil => intro acc i; simp
  | cons l ls ih =>
    intro acc i
    rw [List.foldl_cons, ih, List.any_cons]
    simp only
    cases hn : l.Neg
    · rw [if_neg (by simp [hn]), Nat.testBit_or,
        show (1 <<< indexOfName vars l.Name) = 2 ^ indexOfName vars l.Name
          by rw [Nat.shiftLeft_eq, one_mul],
        Nat.testBit_two_pow]
      cases acc.value.testBit i <;>
        cases h : decide (indexOfName vars l.Name = i) <;> simp_all
    · rw [if_pos (by simp [hn])]
      simp [hn]

/-- The implicant's mask has exactly the bits of the term's variables. -/
theorem termToImplicant_mask_testBit (t : Term) (vars : List String) (i : Nat) :
    (termToImplicant t vars).mask.testBit i
      = t.Lits.any (fun l => decide (indexOfName vars l.Name = i)) := by
  unfold termToImplicant
  rw [termToImplicant_foldl_mask]
  simp

/-- The implicant's value has exactly the bits of the positive literals. -/
theorem termToImplicant_value_testBit (t : Term) (vars : List String) (i : Nat) :
    (termToImplicant t vars).value.testBit i
      = t.Lits.any (fun l => !l.Neg && decide (indexOfName vars l.Name = i)) := by
  unfold termToImplicant
  rw [termToImplicant_foldl_value]
  simp

end cupl

/-- Transitivity of the character-list order. -/
theorem charsLE_trans (a : List Char) : ∀ (b c : List Char),
    charsLE a b = true → charsLE b c = true → charsLE a c = true := by
  induction a with
  | nil => intro b c _ _; rfl
  | cons x xs ih =>
    intro b c h1 h2
    cases b with
    | nil => simp [charsLE] at h1
    | cons y ys =>
      cases c with
      | nil => simp [charsLE] at h2
      | cons z zs =>
        simp only [charsLE] at h1 h2 ⊢
        by_cases hxy : x.val.toNat < y.val.toNat <;>
          by_cases hyx : y.val.toNat < x.val.toNat <;>
          by_cases hyz : y.val.toNat < z.val.toNat <;>
          by_cases hzy : z.val.toNat < y.val.toNat <;>
          by_cases hxz : x.val.toNat < z.val.toNat <;>
          by_cases hzx : z.val.toNat < x.val.toNat <;>
          simp_all <;>
          first
          | omega
          | (exact Or.inr (ih ys zs h1 h2))
          | (exact ih ys zs h1 h2)

/-- Transitivity of the string order. -/
theorem strLE_trans (a b c : String) (h1 : strLE a b = true)
    (h2 : strLE b c = true) : strLE a c = true :=
  charsLE_trans a.data b.data c.data h1 h2

/-- Transitivity of the strict string order. -/
theorem strLT_trans (a b c : String) (h1 : cupl.strLT a b = true)
    (h2 : cupl.strLT b c = true) : cupl.strLT a c = true := by
  unfold cupl.strLT at h1 h2 ⊢
  simp only [Bool.and_eq_true, decide_eq_true_eq] at h1 h2 ⊢
  refine ⟨strLE_trans a b c h1.1 h2.1, ?_⟩
  intro hac
  subst hac
  exact h1.2 (strLE_antisymm a b h1.1 h2.1)

/-- Irreflexivity of the strict string order. -/
theorem strLT_irrefl (a : String) : cupl.strLT a a = false := by
  unfold cupl.strLT
  simp

/-- Strict order implies inequality. -/
theorem strLT_ne (a b : String) (h : cupl.strLT a b = true) : a ≠ b := by
  unfold cupl.strLT at h
  simp only [Bool.and_eq_true, decide_eq_true_eq] at h
  exact h.2

/-- Head-step equation for `findIdx?`. -/
theorem findIdx?_cons' (p : String → Bool) (x : String) (xs : List String) :
    (x :: xs).findIdx? p = if p x then some 0 else (xs.findIdx? p).map (· + 1) := by
  rw [List.findIdx?_cons]
  by_cases h : p x
  · simp [h]
  · simp [h]

/-- An in-range `getD` is a member. -/
theorem getD_mem_of_lt (l : List String) (j : Nat) (h : j < l.length) :
    l.getD j "" ∈ l := by
  rw [List.getD_eq_getElem l "" h]
  exact List.getElem_mem h

/-- For a present name, `indexOfName` is an in-range index giving back the
name. -/
theorem indexOfName_mem (vars : List String) (n : String) : ∀ (h : n ∈ vars),
    indexOfName vars n < vars.length
    ∧ vars.getD (indexOfName vars n) "" = n := by
  induction vars with
  | nil => intro h; cases h
  | cons v vs ih =>
    intro h
    unfold indexOfName
    rw [findIdx?_cons']
    by_cases hv : v = n
    · rw [if_pos (by simp [hv])]
      simpa using hv
    · rw [if_neg (by simp [hv])]
      have hn : n ∈ vs := by
        rcases List.mem_cons.mp h with h2 | h2
        · exact absurd h2.symm hv
        · exact h2
      obtain ⟨ih1, ih2⟩ := ih hn
      unfold indexOfName at ih1 ih2
      rcases hf : vs.findIdx? (fun v => v = n) with _ | idx
      · exfalso
        have hnone := List.findIdx?_eq_none_iff.mp hf
        have h2 := hnone n hn
        simp at h2
      · rw [hf] at ih1 ih2
        simp only [Option.map_some', Option.map_some, Option.getD_some]
          at ih1 ih2 ⊢
        simp only [List.length_cons, List.getD_cons_succ]
        exact ⟨by omega, ih2⟩

/-- On a duplicate-free list, `indexOfName` inverts indexing. -/
theorem indexOfName_getD (vars : List String) : ∀ (hnd : vars.Nodup) (j : Nat)
    (hj : j < vars.length), indexOfName vars (vars.getD j "") = j := by
  induction vars with
  | nil => intro _ j hj; simp at hj
  | cons v vs ih =>
    intro hnd j hj
    rw [List.nodup_cons] at hnd
    cases j with
    | zero =>
      unfold indexOfName
      rw [List.getD_cons_zero, List.findIdx?_cons, if_pos (by simp)]
      rfl
    | succ j =>
      rw [List.getD_cons_succ]
      unfold indexOfName
      rw [findIdx?_cons']
      have hjm : vs.getD j "" ∈ vs :=
        getD_mem_of_lt vs j (by simp at hj; omega)
      rw [if_neg (by
        simp only [decide_eq_true_eq]
        intro hv
        exact hnd.1 (hv ▸ hjm))]
      have hih := ih hnd.2 j (by simp at hj; omega)
      unfold indexOfName at hih
      rcases hf : vs.findIdx? (fun v => v = vs.getD j "") with _ | idx
      · exfalso
        have hnone := List.findIdx?_eq_none_iff.mp hf
        have h2 := hnone (vs.getD j "") hjm
        simp at h2
      · rw [hf] at hih
        simp only [Option.getD_some] at hih
        simp [hih]


/-- The source's boolean bit test as a `testBit`. -/
theorem and_two_pow_beq_zero (v i : Nat) :
    (v &&& (1 <<< i) == 0) = !v.testBit i := by
  cases h : v.testBit i
  · have h0 := (and_two_pow_eq_zero_iff v i).mpr h
    simp [h0]
  · have hne : ¬(v &&& (1 <<< i) = 0) := by
      intro h0
      rw [(and_two_pow_eq_zero_iff v i).mp h0] at h
      cases h
    simp [hne]

namespace cupl

/-- Reconstructing literals from an implicant: reading the mask/value bits
over the sorted variable list yields exactly the (sorted) literal list the
bits were built from. -/
theorem recon_eq (m v : Nat) : ∀ (vs : List String) (k : Nat)
    (ls : List Literal),
    (∀ j, j < vs.length →
      m.testBit (k + j) = ls.any (fun l => decide (l.Name = vs.getD j ""))) →
    (∀ j, j < vs.length →
      v.testBit (k + j)
        = ls.any (fun l => !l.Neg && decide (l.Name = vs.getD j ""))) →
    (∀ l ∈ ls, l.Name ∈ vs) →
    ls.Pairwise (fun a b => strLT a.Name b.Name = true) →
    vs.Pairwise (fun a b => strLT a b = true) →
    (List.enumFrom k vs).filterMap (fun iv =>
        if m &&& (1 <<< iv.1) = 0 then none
        else some (⟨iv.2, v &&& (1 <<< iv.1) == 0⟩ : Literal)) = ls := by
  intro vs
  induction vs with
  | nil =>
    intro k ls _ _ hsub _ _
    cases ls with
    | nil => rfl
    | cons l ls' => exact absurd (hsub l (by simp)) (by simp)
  | cons v₀ vs' ih =>
    intro k ls hbits hval hsub hsort hvs
    rw [show List.enumFrom k (v₀ :: vs') = (k, v₀) :: List.enumFrom (k + 1) vs'
      from rfl, List.filterMap_cons]
    have hb0 : m.testBit k = ls.any (fun l => decide (l.Name = v₀)) := by
      have := hbits 0 (by simp)
      simpa using this
    have hvs'mem : ∀ x ∈ vs', strLT v₀ x = true := by
      intro x hx
      exact (List.pairwise_cons.mp hvs).1 x hx
    by_cases hm0 : m.testBit k = true
    · -- the head variable occurs in the literal list
      cases ls with
      | nil => rw [hm0] at hb0; simp at hb0
      | cons l₀ ls' =>
        have hl₀ : l₀.Name = v₀ := by
          rw [hm0] at hb0
          rcases List.any_eq_true.mp hb0.symm with ⟨l₁, hl₁m, hl₁⟩
          simp only [decide_eq_true_eq] at hl₁
          rcases List.mem_cons.mp hl₁m with h2 | h2
          · rw [h2] at hl₁; exact hl₁
          · exfalso
            have hlt : strLT l₀.Name l₁.Name = true :=
              (List.pairwise_cons.mp hsort).1 l₁ h2
            rw [hl₁] at hlt
            rcases List.mem_cons.mp (hsub l₀ (by simp)) with h3 | h3
            · rw [h3] at hlt
              rw [strLT_irrefl] at hlt
              cases hlt
            · exact strLT_asymm _ _ hlt (hvs'mem _ h3)
        have hls'ne : ∀ l ∈ ls', ¬(l.Name = v₀) := by
          intro l hl he
          have hlt : strLT l₀.Name l.Name = true :=
            (List.pairwise_cons.mp hsort).1 l hl
          rw [hl₀, he] at hlt
          rw [strLT_irrefl] at hlt
          cases hlt
        have hhead : (if m &&& (1 <<< k) = 0 then none
            else some (⟨v₀, v &&& (1 <<< k) == 0⟩ : Literal)) = some l₀ := by
          rw [if_neg (by
            intro h0
            rw [(and_two_pow_eq_zero_iff m k).mp h0] at hm0
            cases hm0)]
          have hneg : (v &&& (1 <<< k) == 0) = l₀.Neg := by
            rw [and_two_pow_beq_zero]
            have hv0 := hval 0 (by simp)
            simp only [Nat.add_zero, List.getD_cons_zero] at hv0
            have : (l₀ :: ls').any (fun l => !l.Neg && decide (l.Name = v₀))
                = !l₀.Neg := by
              rw [List.any_cons]
              have h1 : (decide (l₀.Name = v₀)) = true := by simp [hl₀]
              rw [h1]
              have h2 : ls'.any (fun l => !l.Neg && decide (l.Name = v₀))
                  = false := by
                rw [List.any_eq_false]
                intro l hl
                simp [hls'ne l hl]
              rw [h2]
              cases l₀.Neg <;> rfl
            rw [hv0, this]
            cases l₀.Neg <;> rfl
          rw [hneg, hl₀.symm]
        rw [hhead]
        refine congrArg (fun x => l₀ :: x) (ih (k + 1) ls' ?_ ?_ ?_ ?_ ?_)
        · intro j hj
          have := hbits (j + 1) (by simpa using Nat.succ_lt_succ hj)
          rw [show k + (j + 1) = k + 1 + j by omega] at this
          rw [this, List.getD_cons_succ, List.any_cons]
          have : (decide (l₀.Name = vs'.getD j "")) = false := by
            simp only [decide_eq_false_iff_not]
            intro he
            have hmem : vs'.getD j "" ∈ vs' := getD_mem_of_lt vs' j hj
            have := hvs'mem _ hmem
            rw [hl₀] at he
            rw [he] at this
            rw [strLT_irrefl] at this
            cases this
          rw [this]
          simp
        · intro j hj
          have := hval (j + 1) (by simpa using Nat.succ_lt_succ hj)
          rw [show k + (j + 1) = k + 1 + j by omega] at this
          rw [this, List.getD_cons_succ, List.any_cons]
          have : (decide (l₀.Name = vs'.getD j "")) = false := by
            simp only [decide_eq_false_iff_not]
            intro he
            have hmem : vs'.getD j "" ∈ vs' := getD_mem_of_lt vs' j hj
            have := hvs'mem _ hmem
            rw [hl₀] at he
            rw [he] at this
            rw [strLT_irrefl] at this
            cases this
          rw [this]
          simp
        · intro l hl
          rcases List.mem_cons.mp (hsub l (by simp [hl])) with h2 | h2
          · exact absurd h2 (hls'ne l hl)
          · exact h2
        · exact (List.pairwise_cons.mp hsort).2
        · exact (List.pairwise_cons.mp hvs).2
    · -- the head variable does not occur
      have hm0' : m.testBit k = false := by
        cases h : m.testBit k
        · rfl
        · exact absurd h hm0
      have hnone : (if m &&& (1 <<< k) = 0 then none
          else some (⟨v₀, v &&& (1 <<< k) == 0⟩ : Literal))
          = (none : Option Literal) := by
        rw [if_pos ((and_two_pow_eq_zero_iff m k).mpr hm0')]
      rw [hnone]
      have hnotv₀ : ∀ l ∈ ls, ¬(l.Name = v₀) := by
        rw [hm0'] at hb0
        have := List.any_eq_false.mp hb0.symm
        intro l hl
        simpa using this l hl
      refine ih (k + 1) ls ?_ ?_ ?_ ?_ ?_
      · intro j hj
        have := hbits (j + 1) (by simpa using Nat.succ_lt_succ hj)
        rw [show k + (j + 1) = k + 1 + j by omega] at this
        rw [this, List.getD_cons_succ]
      · intro j hj
        have := hval (j + 1) (by simpa using Nat.succ_lt_succ hj)
        rw [show k + (j + 1) = k + 1 + j by omega] at this
        rw [this, List.getD_cons_succ]
      · intro l hl
        rcases List.mem_cons.mp (hsub l hl) with h2 | h2
        · exact absurd h2 (hnotv₀ l hl)
        · exact h2
      · exact hsort
      · exact (List.pairwise_cons.mp hvs).2

end cupl

/-- `any` only looks at members. -/
theorem any_congr_mem {α : Type} (l : List α) (p q : α → Bool)
    (h : ∀ x ∈ l, p x = q x) : l.any p = l.any q := by
  induction l with
  | nil => rfl
  | cons x xs ih =>
    rw [List.any_cons, List.any_cons, h x (by simp),
      ih (fun y hy => h y (by simp [hy]))]

/-- Strict order implies the order. -/
theorem strLT_le (a b : String) (h : cupl.strLT a b = true) : strLE a b = true := by
  unfold cupl.strLT at h
  simp only [Bool.and_eq_true] at h
  exact h.1

/-- Membership after sorted insertion. -/
theorem mem_insertLe {α : Type} (le : α → α → Bool) (x a : α) (l : List α) :
    a ∈ insertLe le x l ↔ a = x ∨ a ∈ l := by
  rw [(insertLe_perm le x l).mem_iff]
  simp

/-- Sorted insertion keeps the list sorted (for a total transitive
comparator). -/
theorem insertLe_pairwise {α : Type} (le : α → α → Bool)
    (htot : ∀ a b, le a b = true ∨ le b a = true)
    (htrans : ∀ a b c, le a b = true → le b c = true → le a c = true)
    (x : α) (l : List α) (h : l.Pairwise (fun a b => le a b = true)) :
    (insertLe le x l).Pairwise (fun a b => le a b = true) := by
  induction l with
  | nil => simp [insertLe]
  | cons y ys ih =>
    rw [List.pairwise_cons] at h
    show (if le x y then x :: y :: ys else y :: insertLe le x ys).Pairwise _
    by_cases hxy : le x y
    · rw [if_pos hxy]
      rw [List.pairwise_cons]
      refine ⟨?_, List.pairwise_cons.mpr h⟩
      intro b hb
      rcases List.mem_cons.mp hb with h2 | h2
      · rw [h2]; exact hxy
      · exact htrans x y b hxy (h.1 b h2)
    · rw [if_neg hxy]
      rw [List.pairwise_cons]
      refine ⟨?_, ih h.2⟩
      intro b hb
      rcases (mem_insertLe le x b ys).mp hb with h2 | h2
      · rw [h2]
        rcases htot x y with h3 | h3
        · exact absurd h3 hxy
        · exact h3
      · exact h.1 b h2

/-- The insertion sort sorts (for a total transitive comparator). -/
theorem sortBy_pairwise {α : Type} (le : α → α → Bool)
    (htot : ∀ a b, le a b = true ∨ le b a = true)
    (htrans : ∀ a b c, le a b = true → le b c = true → le a c = true)
    (l : List α) : (sortBy le l).Pairwise (fun a b => le a b = true) := by
  induction l with
  | nil => exact List.Pairwise.nil
  | cons x xs ih => exact insertLe_pairwise le htot htrans x (sortBy le xs) ih

namespace cupl

/-- The collected variable list is strictly sorted. -/
theorem collectVars_pairwise (terms : List Term) :
    (collectVars terms).Pairwise (fun a b => strLT a b = true) := by
  unfold collectVars
  have hnd : (sortBy strLE
      ((terms.map (fun t => t.Lits.map (fun l => l.Name))).flatten.dedup)).Nodup :=
    (sortBy_perm strLE _).nodup_iff.mpr (List.nodup_dedup _)
  have hle := sortBy_pairwise strLE strLE_total strLE_trans
    ((terms.map (fun t => t.Lits.map (fun l => l.Name))).flatten.dedup)
  have := List.Pairwise.and hle hnd
  refine this.imp ?_
  rintro a b ⟨h1, h2⟩
  unfold strLT
  simp [h1, h2]

/-- The collected variable list holds exactly the names of the terms. -/
theorem collectVars_mem (terms : List Term) (x : String) :
    x ∈ collectVars terms
      ↔ ∃ t ∈ terms, ∃ l ∈ t.Lits, l.Name = x := by
  unfold collectVars
  rw [mem_sortBy, List.mem_dedup]
  simp only [List.mem_flatten, List.mem_map]
  constructor
  · rintro ⟨names, ⟨t, ht, rfl⟩, hx⟩
    rcases List.mem_map.mp hx with ⟨l, hl, rfl⟩
    exact ⟨t, ht, l, hl, rfl⟩
  · rintro ⟨t, ht, l, hl, rfl⟩
    exact ⟨t.Lits.map (fun l => l.Name), ⟨t, ht, rfl⟩,
      List.mem_map.mpr ⟨l, hl, rfl⟩⟩

end cupl

namespace cupl

/-- Round trip: converting a normalized term (literals strictly sorted by
name, names among the sorted variables) to an implicant and back is the
identity. -/
theorem roundtrip_term (t : Term) (vars : List String)
    (hnorm : t.Lits.Pairwise (fun a b => strLT a.Name b.Name = true))
    (hsub : ∀ l ∈ t.Lits, l.Name ∈ vars)
    (hvs : vars.Pairwise (fun a b => strLT a b = true)) :
    (⟨sortBy (fun a b => strLE a.Name b.Name)
      (vars.enum.filterMap (fun iv =>
        if (termToImplicant t vars).mask &&& (1 <<< iv.1) = 0 then none
        else some (⟨iv.2,
          (termToImplicant t vars).value &&& (1 <<< iv.1) == 0⟩ : Literal)))⟩
      : Term) = t := by
  have hnd : vars.Nodup := by
    have := hvs.imp (fun {a b} h => strLT_ne a b h)
    exact this
  have hrec : vars.enum.filterMap (fun iv =>
      if (termToImplicant t vars).mask &&& (1 <<< iv.1) = 0 then none
      else some (⟨iv.2,
        (termToImplicant t vars).value &&& (1 <<< iv.1) == 0⟩ : Literal))
      = t.Lits := by
    show (List.enumFrom 0 vars).filterMap _ = t.Lits
    apply recon_eq (termToImplicant t vars).mask (termToImplicant t vars).value
      vars 0 t.Lits
    · intro j hj
      rw [Nat.zero_add, termToImplicant_mask_testBit]
      apply any_congr_mem
      intro l hl
      have hmem := hsub l hl
      rw [decide_eq_decide]
      constructor
      · intro hidx
        rw [← hidx]
        exact ((indexOfName_mem vars l.Name hmem).2).symm
      · intro hname
        rw [hname]
        exact indexOfName_getD vars hnd j hj
    · intro j hj
      rw [Nat.zero_add, termToImplicant_value_testBit]
      apply any_congr_mem
      intro l hl
      have hmem := hsub l hl
      have hiff : decide (indexOfName vars l.Name = j)
          = decide (l.Name = vars.getD j "") := by
        rw [decide_eq_decide]
        constructor
        · intro hidx
          rw [← hidx]
          exact ((indexOfName_mem vars l.Name hmem).2).symm
        · intro hname
          rw [hname]
          exact indexOfName_getD vars hnd j hj
      rw [hiff]
    · exact hsub
    · exact hnorm
    · exact hvs
  rw [hrec]
  have hid : sortBy (fun a b => strLE a.Name b.Name) t.Lits = t.Lits := by
    apply sortBy_sorted_id
    exact hnorm.imp (fun {a b} h => strLT_le a.Name b.Name h)
  rw [hid]

end cupl

namespace cupl

/-- A term always expands to at least one minterm (the cap path keeps the
base value). -/
theorem expandMinterms_ne_nil (imp : implicant) (numVars : Nat) :
    expandMinterms imp numVars ≠ [] := by
  unfold expandMinterms
  by_cases h : (dcBitsOf imp numVars).length > 20
  · simp [h]
  · simp only [h, if_false, ite_false]
    intro hc
    have hlen := congrArg List.length hc
    simp at hlen

/-- Set insertion never empties. -/
theorem foldl_setInsert_ne_nil (l : List Nat) : ∀ (s : List Nat), s ≠ [] →
    l.foldl setInsert s ≠ [] := by
  induction l with
  | nil => intro s h; exact h
  | cons x xs ih =>
    intro s h
    rw [List.foldl_cons]
    apply ih
    unfold setInsert
    split
    · exact h
    · simp

/-- A nonempty implicant list has a nonempty minterm set. -/
theorem mintermSetOf_ne_nil (imps : List implicant) (numVars : Nat)
    (h : imps ≠ []) : mintermSetOf imps numVars ≠ [] := by
  unfold mintermSetOf
  cases imps with
  | nil => exact absurd rfl h
  | cons imp rest =>
    rw [List.foldl_cons]
    have hstart : (expandMinterms imp numVars).foldl setInsert [] ≠ [] := by
      rcases he : expandMinterms imp numVars with _ | ⟨m, ms⟩
      · exact absurd he (expandMinterms_ne_nil imp numVars)
      · rw [List.foldl_cons]
        apply foldl_setInsert_ne_nil
        unfold setInsert
        simp
    have hkeep : ∀ (rest : List implicant) (s : List Nat), s ≠ [] →
        rest.foldl (fun s imp => (expandMinterms imp numVars).foldl setInsert s)
          s ≠ [] := by
      intro rest
      induction rest with
      | nil => intro s hs; exact hs
      | cons i is ih =>
        intro s hs
        rw [List.foldl_cons]
        exact ih _ (foldl_setInsert_ne_nil _ _ hs)
    exact hkeep rest _ hstart

end cupl

namespace cupl

/-- Claim C4, amended: when the selected prime cover is strictly smaller
than the input, `minimizeTerms` returns the selected primes sorted by
(value desc, mask desc); otherwise it returns the input terms converted to
implicants, sorted by (value asc, mask asc) and converted BACK to terms —
which equals the original terms sorted by that key exactly when every
input term is in the normal form the DNF synthesizer produces (literals
strictly sorted by name), as the hypotheses here require; an un-normalized
input term is returned re-normalized, not verbatim (`C4_counterexample`). -/
theorem C4_main (terms : List Term) (hlen : 2 ≤ terms.length)
    (hne : ∀ t ∈ terms, t.Lits.isEmpty = false)
    (hnorm : ∀ t ∈ terms, termNormalized t) :
    ((qmSelected terms).length < terms.length →
      minimizeTerms terms
        = implicantsToTerms (sortBy leVMdesc (qmSelected terms))
            (collectVars terms))
    ∧ (¬(qmSelected terms).length < terms.length →
      minimizeTerms terms
        = sortBy (fun a b =>
            leVMasc (termToImplicant a (collectVars terms))
              (termToImplicant b (collectVars terms))) terms) := by
  have h1 : ¬(terms.length ≤ 1) := by omega
  have h2 : terms.any (fun t => t.Lits.isEmpty) = false :=
    List.any_eq_false.mpr (fun t ht => by simp [hne t ht])
  have hvne : (collectVars terms).isEmpty = false := by
    rcases terms with _ | ⟨t₀, rest⟩
    · simp at hlen
    · have h0 := hne t₀ (by simp)
      rcases hl : t₀.Lits with _ | ⟨l₀, ls⟩
      · rw [hl] at h0; simp at h0
      · have hm : l₀.Name ∈ collectVars (t₀ :: rest) :=
          (collectVars_mem _ _).mpr ⟨t₀, by simp, l₀, by simp [hl], rfl⟩
        rcases hcv : collectVars (t₀ :: rest) with _ | ⟨v, vs⟩
        · rw [hcv] at hm
          cases hm
        · rfl
  have hmne : (mintermSetOf
      (terms.map (fun t => termToImplicant t (collectVars terms)))
      (collectVars terms).length).isEmpty = false := by
    have hnn := mintermSetOf_ne_nil
      (terms.map (fun t => termToImplicant t (collectVars terms)))
      (collectVars terms).length
      (by
        rcases terms with _ | ⟨t₀, rest⟩
        · simp at hlen
        · simp)
    rcases hm : mintermSetOf
        (terms.map (fun t => termToImplicant t (collectVars terms)))
        (collectVars terms).length with _ | ⟨m, ms⟩
    · exact absurd hm hnn
    · rfl
  constructor
  · intro h
    simp only [qmSelected] at h
    simp only [minimizeTerms]
    rw [if_neg h1, if_neg (by simp [h2]), if_neg (by simp [hvne]),
      if_neg (by simp [hmne]), if_pos h]
    simp only [qmSelected]
  · intro h
    simp only [qmSelected] at h
    simp only [minimizeTerms]
    rw [if_neg h1, if_neg (by simp [h2]), if_neg (by simp [hvne]),
      if_neg (by simp [hmne]), if_neg h]
    rw [sortBy_map leVMasc (fun t => termToImplicant t (collectVars terms))
      terms]
    unfold implicantsToTerms
    rw [List.map_map]
    conv_rhs => rw [← List.map_id (sortBy (fun a b =>
      leVMasc (termToImplicant a (collectVars terms))
        (termToImplicant b (collectVars terms))) terms)]
    apply List.map_congr_left
    intro t' ht'
    have ht'mem : t' ∈ terms := (mem_sortBy _ _ _).mp ht'
    simp only [Function.comp_apply, id]
    exact roundtrip_term t' (collectVars terms)
      (hnorm t' ht'mem)
      (fun l hl => (collectVars_mem _ _).mpr ⟨t', ht'mem, l, hl, rfl⟩)
      (collectVars_pairwise terms)

end cupl

namespace cupl

/-- Counterexample to C4 as stated: on input `[b & a, c]` (first term's
literals deliberately not sorted by name) the minimizer keeps both terms,
but the returned list does not contain the original term `b & a` — it was
re-synthesized as `a & b`, so the output is NOT the original terms in any
order. -/
theorem C4_counterexample :
    ((⟨[⟨"b", false⟩, ⟨"a", false⟩]⟩ : Term)
        ∈ ([⟨[⟨"b", false⟩, ⟨"a", false⟩]⟩, ⟨[⟨"c", false⟩]⟩] : List Term))
    ∧ (minimizeTerms
        ([⟨[⟨"b", false⟩, ⟨"a", false⟩]⟩, ⟨[⟨"c", false⟩]⟩] : List Term)).length
        = 2
    ∧ (⟨[⟨"b", false⟩, ⟨"a", false⟩]⟩ : Term)
        ∉ minimizeTerms
            ([⟨[⟨"b", false⟩, ⟨"a", false⟩]⟩, ⟨[⟨"c", false⟩]⟩] : List Term) :=
  ⟨by decide, by decide, by decide⟩

/-- Witness for C4's amended statement on the normalized input `[a, b]`. -/
theorem C4_main_witness :
    2 ≤ ([⟨[⟨"a", false⟩]⟩, ⟨[⟨"b", false⟩]⟩] : List Term).length
    ∧ (∀ t ∈ ([⟨[⟨"a", false⟩]⟩, ⟨[⟨"b", false⟩]⟩] : List Term),
        t.Lits.isEmpty = false)
    ∧ (∀ t ∈ ([⟨[⟨"a", false⟩]⟩, ⟨[⟨"b", false⟩]⟩] : List Term),
        termNormalized t)
    ∧ (¬(qmSelected ([⟨[⟨"a", false⟩]⟩, ⟨[⟨"b", false⟩]⟩] : List Term)).length
          < ([⟨[⟨"a", false⟩]⟩, ⟨[⟨"b", false⟩]⟩] : List Term).length →
        minimizeTerms ([⟨[⟨"a", false⟩]⟩, ⟨[⟨"b", false⟩]⟩] : List Term)
          = sortBy (fun a b =>
              leVMasc
                (termToImplicant a
                  (collectVars ([⟨[⟨"a", false⟩]⟩, ⟨[⟨"b", false⟩]⟩] : List Term)))
                (termToImplicant b
                  (collectVars ([⟨[⟨"a", false⟩]⟩, ⟨[⟨"b", false⟩]⟩] : List Term))))
              ([⟨[⟨"a", false⟩]⟩, ⟨[⟨"b", false⟩]⟩] : List Term)) := by
  have hnormp : ∀ t ∈ ([⟨[⟨"a", false⟩]⟩, ⟨[⟨"b", false⟩]⟩] : List Term),
      termNormalized t := by
    intro t ht
    unfold termNormalized
    rcases List.mem_cons.mp ht with h | h
    · subst h
      exact List.pairwise_singleton _ _
    · rcases List.mem_cons.mp h with h2 | h2
      · subst h2
        exact List.pairwise_singleton _ _
      · cases h2
  refine ⟨by decide, by decide, hnormp,
    (C4_main ([⟨[⟨"a", false⟩]⟩, ⟨[⟨"b", false⟩]⟩] : List Term)
      (by decide) (by decide) hnormp).2⟩

end cupl
